import Mathlib

/-!
Verification of the aggregation core of `diversity-citation-networks`
(`src/App.jsx`): the filter pipeline, graph aggregator, quantile
estimator, effect summarizer and itemset ranker, shallowly embedded in
Lean. JavaScript numbers are modelled as exact rationals (`ℚ`),
JavaScript `Map`s (which preserve insertion order) as association lists
with append-on-insert, and `Array.prototype.sort` (a stable,
comparator-driven sort) as stable insertion sort.
-/

namespace DivNet

/-! ### JavaScript string primitives

JavaScript compares strings by UTF-16 code units; codes here are plain
ASCII JEL codes, for which Lean's `Char` scalar values agree with UTF-16
units. We use a structurally recursive lexicographic comparison so that
concrete instances reduce in the kernel. -/

/-- Lexicographic strict comparison on character lists by code point. -/
def charListLtb : List Char → List Char → Bool
  | [], [] => false
  | [], _ :: _ => true
  | _ :: _, [] => false
  | a :: as, b :: bs =>
    if a < b then true
    else if b < a then false
    else charListLtb as bs

/-- Strict string comparison, as used by the JavaScript `<` operator and
the default `Array.prototype.sort` comparator. -/
def strLtb (a b : String) : Bool := charListLtb a.data b.data

/-- Non-strict string comparison: `a` may be placed before `b` by a stable
JavaScript sort exactly when `¬ (b < a)`. -/
def strLeb (a b : String) : Bool := ! strLtb b a

theorem charListLtb_asymm : ∀ l m : List Char,
    charListLtb l m = true → charListLtb m l = false
  | [], [], h => by simpa [charListLtb] using h
  | [], _ :: _, _ => rfl
  | _ :: _, [], h => by simpa [charListLtb] using h
  | a :: as, b :: bs, h => by
    by_cases hab : a < b
    · have hba : ¬ b < a := lt_asymm hab
      simp [charListLtb, hab, hba]
    · by_cases hba : b < a
      · simp [charListLtb, hab, hba] at h
      · simp only [charListLtb, hab, hba, if_false] at h ⊢
        exact charListLtb_asymm as bs h

theorem charListLtb_total : ∀ l m : List Char,
    charListLtb l m = false → charListLtb m l = false → l = m
  | [], [], _, _ => rfl
  | [], _ :: _, h, _ => by simp [charListLtb] at h
  | _ :: _, [], _, h => by simp [charListLtb] at h
  | a :: as, b :: bs, h, h' => by
    by_cases hab : a < b
    · simp [charListLtb, hab] at h
    · by_cases hba : b < a
      · simp [charListLtb, hba] at h'
      · simp only [charListLtb, hab, hba, if_false] at h h'
        have hc : a = b := le_antisymm (not_lt.mp hba) (not_lt.mp hab)
        rw [hc, charListLtb_total as bs h h']

theorem charListLtb_trans : ∀ l m n : List Char,
    charListLtb l m = true → charListLtb m n = true → charListLtb l n = true
  | [], [], _, h, _ => by simp [charListLtb] at h
  | [], _ :: _, [], _, h => by simp [charListLtb] at h
  | [], _ :: _, _ :: _, _, _ => rfl
  | _ :: _, [], _, h, _ => by simp [charListLtb] at h
  | _ :: _, _ :: _, [], _, h => by simp [charListLtb] at h
  | a :: as, b :: bs, c :: cs, h, h' => by
    by_cases hab : a < b
    · by_cases hbc : b < c
      · have hac : a < c := lt_trans hab hbc
        simp [charListLtb, hac]
      · by_cases hcb : c < b
        · simp [charListLtb, hbc, hcb] at h'
        · have hbceq : b = c := le_antisymm (not_lt.mp hcb) (not_lt.mp hbc)
          have hac : a < c := hbceq ▸ hab
          simp [charListLtb, hac]
    · by_cases hba : b < a
      · simp [charListLtb, hab, hba] at h
      · have habeq : a = b := le_antisymm (not_lt.mp hba) (not_lt.mp hab)
        by_cases hbc : b < c
        · have hac : a < c := habeq ▸ hbc
          simp [charListLtb, hac]
        · by_cases hcb : c < b
          · simp [charListLtb, hbc, hcb] at h'
          · simp only [charListLtb, hab, hba, hbc, hcb, if_false] at h h' ⊢
            have hac : ¬ a < c := habeq ▸ hbc
            have hca : ¬ c < a := habeq ▸ hcb
            simp only [hac, hca, if_false]
            exact charListLtb_trans as bs cs h h'

theorem strLeb_total (a b : String) : strLeb a b = true ∨ strLeb b a = true := by
  by_cases h : strLtb b a = true
  · right
    have hasy := charListLtb_asymm b.data a.data h
    simp [strLeb, strLtb, hasy]
  · left
    simp only [strLeb, strLtb, Bool.not_eq_true'] at h ⊢
    simpa using h

theorem strLeb_trans {a b c : String} (h : strLeb a b = true)
    (h' : strLeb b c = true) : strLeb a c = true := by
  simp only [strLeb, Bool.not_eq_true', strLtb] at h h' ⊢
  by_cases hca : charListLtb c.data a.data = true
  · by_cases hcb : charListLtb a.data b.data = true
    · have hcb2 := charListLtb_trans _ _ _ hca hcb
      rw [hcb2] at h'
      exact absurd h' (by simp)
    · have hab : a.data = b.data :=
        charListLtb_total a.data b.data (by simpa using hcb) h
      rw [hab] at hca
      rw [hca] at h'
      exact absurd h' (by simp)
  · simpa using hca

/-! ### The data model

A `Record` is one row of the publication table after `processData`
(`App.jsx` lines 59–99): three parsed category code-lists (`cross` as a
list of methodological–theoretical pairs), three signed Rao–Stirling
indices, the publication year, and the parsed `citation_<window>`
columns as an association list from column name to value (a column
absent from the CSV is simply absent from the list). -/

/-- The three component categories iterated by `buildNetworkData`. -/
inductive Component
  | theoretical
  | methodological
  | cross
  deriving DecidableEq, Repr

/-- One processed publication record. -/
structure Record where
  theoretical : List String
  methodological : List String
  cross : List (String × String)
  rs_theoretical : ℚ
  rs_methodological : ℚ
  rs_cross : ℚ
  publication_year : Int
  citations : List (String × ℚ)
  deriving Repr

/-- Per-category Rao–Stirling accessor: `row[rsCol]` with
`rsCol = rao_stirling_<component>` (`App.jsx` line 159). -/
def Record.rsFor (r : Record) : Component → ℚ
  | .theoretical => r.rs_theoretical
  | .methodological => r.rs_methodological
  | .cross => r.rs_cross

/-- Number of entries in the record's list for a category: codes for
`theoretical`/`methodological`, pairs for `cross` (`d[component].length`). -/
def Record.catLen (r : Record) : Component → Nat
  | .theoretical => r.theoretical.length
  | .methodological => r.methodological.length
  | .cross => r.cross.length

/-- Citation value for the selected window: `row[citationCol] || 0`
(`App.jsx` line 182) — a missing column, modelled as an absent key, reads
as `0`; a stored `0` is also mapped to `0` by `||`. -/
def jsCitation (r : Record) (citationCol : String) : ℚ :=
  match r.citations.lookup citationCol with
  | some v => if v = 0 then 0 else v
  | none => 0

/-! ### Quantile estimator

`quantile` (`App.jsx` lines 102–111): sort the sample ascending, take the
linearly interpolated order statistic at fractional position
`(n-1)·q`. `[...arr].sort((a,b) => a - b)` is a stable numeric ascending
sort, modelled by insertion sort with `· ≤ ·`; out-of-range indexing in
JavaScript yields `undefined` and only the guarded branches below are
exercised by the callers (which always pass a non-empty list). -/

/-- Ascending numeric sort, as `[...arr].sort((a, b) => a - b)`. -/
def jsSortAsc (arr : List ℚ) : List ℚ :=
  arr.insertionSort (· ≤ ·)

/-- The quantile estimator from `App.jsx` lines 102–111. -/
def quantile (arr : List ℚ) (q : ℚ) : ℚ :=
  let sorted := jsSortAsc arr
  let pos : ℚ := ((sorted.length : ℚ) - 1) * q
  let base : Int := ⌊pos⌋
  let rest : ℚ := pos - (base : ℚ)
  match sorted.get? (base.toNat + 1), sorted.get? base.toNat with
  | some next, some cur => cur + rest * (next - cur)
  | none, some cur => cur
  | _, none => 0

/-- Citation column name for a window: `citation_${citationWindow}`
(`App.jsx` lines 114–116). -/
def getCitationColumn (citationWindow : String) : String :=
  "citation_" ++ citationWindow

/-- Beta coefficient proxy (`App.jsx` lines 119–121): the RS value itself. -/
def calculateBeta (rsValue : ℚ) : ℚ := rsValue

/-! ### JEL code normalization

From `processData` (`App.jsx` lines 66–80): a code matching `/^[A-Z]\d$/`
— one uppercase letter followed by one decimal digit — gains a trailing
`'0'`; the rule is applied to the `theoretical` and `methodological`
lists and to both members of every `cross` pair. -/

/-- Test for the regular expression `/^[A-Z]\d$/`. -/
def isShortCode (s : String) : Bool :=
  match s.data with
  | [a, b] =>
    decide ('A' ≤ a) && decide (a ≤ 'Z') && decide ('0' ≤ b) && decide (b ≤ '9')
  | _ => false

/-- Normalization of one code: `C5 -> C50` (`App.jsx` line 69). -/
def normalizeCode (c : String) : String :=
  if isShortCode c then c ++ "0" else c

/-- Normalization of a whole parsed record, as applied by `processData`
to the three list columns before any aggregation (`App.jsx` lines 66–80). -/
def normalizeRecord (r : Record) : Record :=
  { r with
    theoretical := r.theoretical.map normalizeCode
    methodological := r.methodological.map normalizeCode
    cross := r.cross.map (fun p => (normalizeCode p.1, normalizeCode p.2)) }

/-! ### Association lists

JavaScript `Map`s preserve insertion order; we model them as association
lists where a fresh key is appended at the end. `getOrCreateNode` (and
the analogous edge upsert) inserts a pristine accumulator and the caller
then mutates it in place, so an upsert applies the mutation `f` to the
existing entry, or to the freshly created one. -/

/-- Lookup by key in an association list (first match). -/
def alookup {α : Type} : List (String × α) → String → Option α
  | [], _ => none
  | p :: rest, k => if p.1 = k then some p.2 else alookup rest k

/-- Apply `f` to the entry at key `k`, leaving other entries unchanged. -/
def alistUpdate {α : Type} (m : List (String × α)) (k : String) (f : α → α) :
    List (String × α) :=
  m.map fun p => if p.1 = k then (p.1, f p.2) else p

/-- JavaScript `Map` upsert-and-mutate: create the entry from `dflt` if
absent (appended, preserving insertion order), then apply the mutation. -/
def alistUpsert {α : Type} (m : List (String × α)) (k : String) (dflt : α)
    (f : α → α) : List (String × α) :=
  match alookup m k with
  | some _ => alistUpdate m k f
  | none => m ++ [(k, f dflt)]

/-! ### Graph aggregator state -/

/-- Node accumulator (`getOrCreateNode`, `App.jsx` lines 143–156).
`years` models a JavaScript `Set` (insertion-ordered, duplicate-free). -/
structure Node where
  id : String
  category : Component
  totalRS : ℚ
  count : Nat
  rs_theoretical : ℚ
  count_theoretical : Nat
  rs_methodological : ℚ
  count_methodological : Nat
  rs_cross : ℚ
  count_cross : Nat
  years : List Int
  citations : List ℚ
  deriving Repr

/-- The pristine node inserted by `getOrCreateNode` for a new code. -/
def Node.init (code : String) (defaultCategory : Component) : Node :=
  { id := code, category := defaultCategory
    totalRS := 0, count := 0
    rs_theoretical := 0, count_theoretical := 0
    rs_methodological := 0, count_methodological := 0
    rs_cross := 0, count_cross := 0
    years := [], citations := [] }

/-- JavaScript `Set.add`: append if not already present. -/
def jsSetAdd (ys : List Int) (y : Int) : List Int :=
  if y ∈ ys then ys else ys ++ [y]

/-- One node contribution (`App.jsx` lines 208–214 / 216–222 / 239–246):
add `rs` to the total and to the per-`component` accumulator, bump both
counts, record the year and append the citation. -/
def Node.contribute (component : Component) (rs : ℚ) (year : Int) (cit : ℚ)
    (n : Node) : Node :=
  let n' := { n with
    totalRS := n.totalRS + rs
    count := n.count + 1
    years := jsSetAdd n.years year
    citations := n.citations ++ [cit] }
  match component with
  | .theoretical => { n' with
      rs_theoretical := n'.rs_theoretical + rs
      count_theoretical := n'.count_theoretical + 1 }
  | .methodological => { n' with
      rs_methodological := n'.rs_methodological + rs
      count_methodological := n'.count_methodological + 1 }
  | .cross => { n' with
      rs_cross := n'.rs_cross + rs
      count_cross := n'.count_cross + 1 }

/-- Edge accumulator (`App.jsx` lines 226–228 / 253–256). `source` and
`target` keep the orientation of the contribution that created the
entry; the map key is canonical (see `canonKey`). -/
structure Edge where
  source : String
  target : String
  weight : ℚ
  type : Component
  count : Nat
  betas : List ℚ
  citations : List ℚ
  deriving Repr

/-- The pristine edge entry created on first insertion. -/
def Edge.init (a b : String) (t : Component) : Edge :=
  { source := a, target := b, weight := 0, type := t
    count := 0, betas := [], citations := [] }

/-- One edge contribution (`App.jsx` lines 231–235 / 258–262). -/
def Edge.contribute (rs cit : ℚ) (e : Edge) : Edge :=
  { e with
    weight := e.weight + rs
    count := e.count + 1
    betas := e.betas ++ [calculateBeta rs]
    citations := e.citations ++ [cit] }

/-- Canonical ordering of a two-element string array by the default
JavaScript sort: `[x, y].sort()` swaps the pair exactly when `y < x`. -/
def canonPair (x y : String) : String × String :=
  if strLtb y x then (y, x) else (x, y)

/-- Canonical edge key: `[x, y].sort().join('--')`
(`App.jsx` lines 224 and 251). -/
def canonKey (x y : String) : String :=
  (canonPair x y).1 ++ "--" ++ (canonPair x y).2

/-- One pending node update, flattened out of the nested `forEach` loops:
the code, the default category passed to `getOrCreateNode`, the component
whose per-category accumulator receives the RS value, and the row's
`rs`, `year` and citation values. -/
structure NodeContrib where
  code : String
  defaultCat : Component
  comp : Component
  rs : ℚ
  year : Int
  cit : ℚ
  deriving Repr

/-- Apply one node contribution to the node map. -/
def applyNodeContrib (m : List (String × Node)) (c : NodeContrib) :
    List (String × Node) :=
  alistUpsert m c.code (Node.init c.code c.defaultCat)
    (Node.contribute c.comp c.rs c.year c.cit)

/-- One pending edge update: the two endpoint codes in contribution
order, the component, and the row's `rs` and citation values. -/
structure EdgeContrib where
  a : String
  b : String
  comp : Component
  rs : ℚ
  cit : ℚ
  deriving Repr

/-- Apply one edge contribution to the edge map. -/
def applyEdgeContrib (m : List (String × Edge)) (c : EdgeContrib) :
    List (String × Edge) :=
  alistUpsert m (canonKey c.a c.b) (Edge.init c.a c.b c.comp)
    (Edge.contribute c.rs c.cit)

/-- All unordered index pairs `i < j` of a list, in the order of the
double loop at `App.jsx` lines 249–250. -/
def listPairs {α : Type} : List α → List (α × α)
  | [] => []
  | x :: xs => (xs.map fun y => (x, y)) ++ listPairs xs

/-- Node contributions of one selected row for one component
(`App.jsx` lines 203–247): for `cross`, each pair upserts a
methodological node for its first member and a theoretical node for its
second; otherwise every code of the row's list upserts a node of the
component's own category. -/
def rowNodeContribs (comp : Component) (citationCol : String) (row : Record) :
    List NodeContrib :=
  let rs := row.rsFor comp
  let year := row.publication_year
  let cit := jsCitation row citationCol
  match comp with
  | .cross => row.cross.flatMap fun p =>
      [⟨p.1, .methodological, .cross, rs, year, cit⟩,
       ⟨p.2, .theoretical, .cross, rs, year, cit⟩]
  | .theoretical => row.theoretical.map fun c =>
      ⟨c, .theoretical, .theoretical, rs, year, cit⟩
  | .methodological => row.methodological.map fun c =>
      ⟨c, .methodological, .methodological, rs, year, cit⟩

/-- Edge contributions of one selected row for one component: one edge
per `cross` pair (`App.jsx` lines 224–236), versus full pairwise clique
expansion of the row's own code-list (`App.jsx` lines 249–264). -/
def rowEdgeContribs (comp : Component) (citationCol : String) (row : Record) :
    List EdgeContrib :=
  let rs := row.rsFor comp
  let cit := jsCitation row citationCol
  match comp with
  | .cross => row.cross.map fun p => ⟨p.1, p.2, .cross, rs, cit⟩
  | .theoretical => (listPairs row.theoretical).map fun p =>
      ⟨p.1, p.2, .theoretical, rs, cit⟩
  | .methodological => (listPairs row.methodological).map fun p =>
      ⟨p.1, p.2, .methodological, rs, cit⟩

/-! ### Itemset (combination) extraction -/

/-- One stored combination (`App.jsx` lines 191–197). -/
structure Combination where
  id : String
  codes : List String
  type : Component
  citation : ℚ
  year : Int
  deriving Repr, DecidableEq

/-- JavaScript `[...new Set(xs)]`: first occurrences, in insertion order. -/
def jsSetDedup (l : List String) : List String :=
  l.foldl (fun acc a => if a ∈ acc then acc else acc ++ [a]) []

/-- String ordering used for sorting code arrays, as a `Prop` relation
for `List.insertionSort`: a stable sort may keep `a` before `b` exactly
when `strLeb a b`. -/
def strLe (a b : String) : Prop := strLeb a b = true

instance : DecidableRel strLe := fun a b =>
  inferInstanceAs (Decidable (strLeb a b = true))

/-- Default (lexicographic) ascending stable string sort `.sort()`. -/
def jsSortStr (l : List String) : List String := l.insertionSort strLe

/-- The flattened code array for a row and component (`App.jsx` lines
187–189): `cross` pairs are flattened and deduplicated before sorting;
the other two lists are sorted as-is (duplicates retained). -/
def rowFlatCodes (comp : Component) (row : Record) : List String :=
  match comp with
  | .cross => jsSortStr (jsSetDedup (row.cross.flatMap fun p => [p.1, p.2]))
  | .theoretical => jsSortStr row.theoretical
  | .methodological => jsSortStr row.methodological

/-- Combinations pushed for one selected row (`App.jsx` lines 185–198):
one entry when the row's list for the component has at least two
entries, none otherwise. -/
def rowCombos (comp : Component) (citationCol : String) (row : Record) :
    List Combination :=
  if 2 ≤ row.catLen comp then
    let flat := rowFlatCodes comp row
    [{ id := String.intercalate "+" flat, codes := flat, type := comp
       citation := jsCitation row citationCol
       year := row.publication_year }]
  else []

/-! ### Filter pipeline -/

/-- The filter parameter bundle (`App.jsx` lines 130–131, 914–921). -/
structure Filters where
  yearRange : Int × Int
  minRS_theoretical : ℚ
  minRS_methodological : ℚ
  minRS_cross : ℚ
  topN : Nat
  componentTypes : List Component

/-- Threshold selection `filters[minRS_${component}] || 0`
(`App.jsx` line 161); on a present rational field `|| 0` is the
identity (it maps `0` to `0` and keeps everything else). -/
def Filters.minRSFor (f : Filters) : Component → ℚ
  | .theoretical => if f.minRS_theoretical = 0 then 0 else f.minRS_theoretical
  | .methodological =>
    if f.minRS_methodological = 0 then 0 else f.minRS_methodological
  | .cross => if f.minRS_cross = 0 then 0 else f.minRS_cross

/-- The year-range filter (`App.jsx` lines 134–137), inclusive on both
ends. -/
def yearFilter (data : List Record) (f : Filters) : List Record :=
  data.filter fun d =>
    decide (f.yearRange.1 ≤ d.publication_year ∧
      d.publication_year ≤ f.yearRange.2)

/-- The per-component record predicate (`App.jsx` lines 164–169):
non-empty code list and RS magnitude at least the threshold. -/
def passesComp (f : Filters) (comp : Component) (d : Record) : Prop :=
  0 < d.catLen comp ∧ f.minRSFor comp ≤ |d.rsFor comp|

instance (f : Filters) (comp : Component) : DecidablePred (passesComp f comp) :=
  fun d => inferInstanceAs (Decidable (_ ∧ _))

/-- Magnitude-descending ranking relation (`App.jsx` lines 170–175): `a`
may stay before `b` exactly when `|rs_b| ≤ |rs_a|`. -/
def rsDescOrder (comp : Component) (a b : Record) : Prop :=
  |b.rsFor comp| ≤ |a.rsFor comp|

instance (comp : Component) : DecidableRel (rsDescOrder comp) := fun a b =>
  inferInstanceAs (Decidable (_ ≤ _))

/-- Per-component record selection (`App.jsx` lines 163–176): filter the
year-filtered data by `passesComp`, stably sort descending by RS
magnitude, and keep the first `topN` rows. -/
def selectRows (data : List Record) (f : Filters) (comp : Component) :
    List Record :=
  ((((yearFilter data f).filter fun d => decide (passesComp f comp d))
    |>.insertionSort (rsDescOrder comp))
    |>.take f.topN)

/-! ### The pipeline orchestrator -/

/-- Mutable state of one `buildNetworkData` run: the two insertion-order
maps and the combinations array. -/
structure BuildState where
  nodeMap : List (String × Node)
  edgeMap : List (String × Edge)
  combinations : List Combination

/-- Process one selected row for one component (`App.jsx` lines
178–266). The node map, edge map and combinations array are disjoint
pieces of state, so the interleaved in-place mutations of the source are
modelled as one fold per piece. -/
def processRow (comp : Component) (citationCol : String) (st : BuildState)
    (row : Record) : BuildState :=
  { nodeMap := (rowNodeContribs comp citationCol row).foldl applyNodeContrib
      st.nodeMap
    edgeMap := (rowEdgeContribs comp citationCol row).foldl applyEdgeContrib
      st.edgeMap
    combinations := st.combinations ++ rowCombos comp citationCol row }

/-- The whole aggregation loop over active components and their selected
rows (`App.jsx` lines 158–267). -/
def buildState (data : List Record) (f : Filters) (citationCol : String) :
    BuildState :=
  f.componentTypes.foldl
    (fun st comp => (selectRows data f comp).foldl (processRow comp citationCol) st)
    ⟨[], [], []⟩

/-- Output node shape (`App.jsx` lines 269–277): the accumulator plus
derived means and the citation order statistic. -/
structure FinalNode where
  id : String
  category : Component
  totalRS : ℚ
  count : Nat
  rs_theoretical : ℚ
  count_theoretical : Nat
  rs_methodological : ℚ
  count_methodological : Nat
  rs_cross : ℚ
  count_cross : Nat
  years : List Int
  citations : List ℚ
  avgRS : ℚ
  avgRS_theoretical : ℚ
  avgRS_methodological : ℚ
  avgRS_cross : ℚ
  citationAtQuantile : ℚ
  deriving Repr

/-- Node finalization (`App.jsx` lines 269–277). The JavaScript
conditionals `count ? x / count : 0` test count truthiness, i.e.
`count ≠ 0`. -/
def finalizeNode (quantileValue : ℚ) (n : Node) : FinalNode :=
  { id := n.id, category := n.category, totalRS := n.totalRS
    count := n.count
    rs_theoretical := n.rs_theoretical
    count_theoretical := n.count_theoretical
    rs_methodological := n.rs_methodological
    count_methodological := n.count_methodological
    rs_cross := n.rs_cross, count_cross := n.count_cross
    years := n.years, citations := n.citations
    avgRS := n.totalRS / (n.count : ℚ)
    avgRS_theoretical :=
      if n.count_theoretical = 0 then 0
      else n.rs_theoretical / (n.count_theoretical : ℚ)
    avgRS_methodological :=
      if n.count_methodological = 0 then 0
      else n.rs_methodological / (n.count_methodological : ℚ)
    avgRS_cross :=
      if n.count_cross = 0 then 0 else n.rs_cross / (n.count_cross : ℚ)
    citationAtQuantile :=
      if 0 < n.citations.length then quantile n.citations quantileValue else 0 }

/-- Output edge shape (`App.jsx` lines 279–287). -/
structure FinalEdge where
  source : String
  target : String
  weight : ℚ
  type : Component
  count : Nat
  betas : List ℚ
  citations : List ℚ
  avgBeta : ℚ
  avgCitations : ℚ
  citationAtQuantile : ℚ
  deriving Repr

/-- Edge finalization (`App.jsx` lines 279–287): arithmetic means of the
effect and citation lists (0 on empty) and the citation order
statistic. -/
def finalizeEdge (quantileValue : ℚ) (e : Edge) : FinalEdge :=
  { source := e.source, target := e.target, weight := e.weight
    type := e.type, count := e.count, betas := e.betas
    citations := e.citations
    avgBeta :=
      if 0 < e.betas.length then e.betas.sum / (e.betas.length : ℚ) else 0
    avgCitations :=
      if 0 < e.citations.length then
        e.citations.sum / (e.citations.length : ℚ)
      else 0
    citationAtQuantile :=
      if 0 < e.citations.length then quantile e.citations quantileValue
      else 0 }

/-- The pipeline output. -/
structure NetworkData where
  nodes : List FinalNode
  edges : List FinalEdge
  combinations : List Combination

/-- The pure pipeline `buildNetworkData` (`App.jsx` lines 130–290). -/
def buildNetworkData (data : List Record) (f : Filters)
    (citationWindow : String) (quantileValue : ℚ) : NetworkData :=
  let citationCol := getCitationColumn citationWindow
  let st := buildState data f citationCol
  { nodes := st.nodeMap.map fun p => finalizeNode quantileValue p.2
    edges := st.edgeMap.map fun p => finalizeEdge quantileValue p.2
    combinations := st.combinations }

/-! ### Effect summarizer (`App.jsx` lines 948–964)

The network effect recomputed after every pipeline run: each edge
weighs its `avgBeta` by `citationAtQuantile || 1` — the JavaScript `||`
replaces a (falsy) `0` by `1` but passes every nonzero value through,
including values strictly between `0` and `1`. With no edges the effect
state keeps its initial value `0` (the `useState(0)` default). -/

/-- Per-edge weight `e.citationAtQuantile || 1`. -/
def edgeWeightJs (e : FinalEdge) : ℚ :=
  if e.citationAtQuantile = 0 then 1 else e.citationAtQuantile

/-- The network-level current effect on a fresh invocation. -/
def networkEffect (edges : List FinalEdge) : ℚ :=
  if 0 < edges.length then
    let totalWeightedBeta := (edges.map fun e => e.avgBeta * edgeWeightJs e).sum
    let totalWeight := (edges.map edgeWeightJs).sum
    if 0 < totalWeight then totalWeightedBeta / totalWeight else 0
  else 0

/-! ### Itemset ranker (`TopClustersModal`, `App.jsx` lines 828–857) -/

/-- Cluster accumulator, grouped by combination `id`. -/
structure Cluster where
  id : String
  codes : List String
  type : Component
  count : Nat
  totalCit : ℚ
  citations : List ℚ
  deriving Repr

/-- Fold one combination into the cluster groups (`App.jsx` lines
833–849): create the group on first sight of the `id` (keeping that
combination's codes and type), then always bump the aggregates. -/
def applyCluster (m : List (String × Cluster)) (c : Combination) :
    List (String × Cluster) :=
  let m1 := match alookup m c.id with
    | some _ => m
    | none => m ++ [(c.id,
        { id := c.id, codes := c.codes, type := c.type
          count := 0, totalCit := 0, citations := [] })]
  alistUpdate m1 c.id fun g =>
    { g with
      count := g.count + 1
      totalCit := g.totalCit + c.citation
      citations := g.citations ++ [c.citation] }

/-- Output cluster shape with the derived mean citation. -/
structure FinalCluster where
  id : String
  codes : List String
  type : Component
  count : Nat
  totalCit : ℚ
  citations : List ℚ
  avgCit : ℚ
  deriving Repr

/-- Mean-citation-descending ranking relation (`App.jsx` line 856). -/
def clusterDescOrder (a b : FinalCluster) : Prop := b.avgCit ≤ a.avgCit

instance : DecidableRel clusterDescOrder := fun a b =>
  inferInstanceAs (Decidable (_ ≤ _))

/-- The cluster ranking (`App.jsx` lines 830–857): group combinations by
`id`, derive each group's mean citation, sort descending by it, and keep
the top 10. -/
def topClusters (combinations : List Combination) : List FinalCluster :=
  let groups := combinations.foldl applyCluster []
  (((groups.map fun p =>
      { id := p.2.id, codes := p.2.codes, type := p.2.type
        count := p.2.count, totalCit := p.2.totalCit
        citations := p.2.citations
        avgCit :=
          if 0 < p.2.count then p.2.totalCit / (p.2.count : ℚ)
          else 0 : FinalCluster })
    |>.insertionSort clusterDescOrder)
    |>.take 10)

/-! ### Association-list lemmas -/

theorem alookup_append {α : Type} (m₁ m₂ : List (String × α)) (x : String) :
    alookup (m₁ ++ m₂) x =
      match alookup m₁ x with
      | some v => some v
      | none => alookup m₂ x := by
  induction m₁ with
  | nil => simp [alookup]
  | cons p rest ih =>
    by_cases h : p.1 = x
    · simp [alookup, h]
    · simp [alookup, h, ih]

theorem alookup_alistUpdate {α : Type} (m : List (String × α)) (k : String)
    (f : α → α) (x : String) :
    alookup (alistUpdate m k f) x =
      if k = x then (alookup m x).map f else alookup m x := by
  induction m with
  | nil => simp [alookup, alistUpdate]
  | cons p rest ih =>
    simp only [alistUpdate, List.map_cons] at ih ⊢
    by_cases hpx : p.1 = x
    · by_cases hpk : p.1 = k
      · have hkx : k = x := hpk ▸ hpx
        simp [alookup, hpx, hpk, hkx]
      · have hkx : ¬ k = x := fun h => hpk (hpx.trans h.symm)
        have hxk : ¬ x = k := fun h => hkx h.symm
        simp [alookup, hpx, hpk, hkx, hxk]
    · by_cases hpk : p.1 = k
      · have hkx : ¬ k = x := fun h => hpx (hpk.trans h)
        simp [alookup, hpx, hpk, hkx, ih]
      · simp [alookup, hpx, hpk, ih]

theorem alookup_alistUpsert {α : Type} (m : List (String × α)) (k : String)
    (d : α) (f : α → α) (x : String) :
    alookup (alistUpsert m k d f) x =
      if k = x then some (f ((alookup m k).getD d)) else alookup m x := by
  unfold alistUpsert
  cases hk : alookup m k with
  | some v =>
    rw [alookup_alistUpdate]
    by_cases hkx : k = x
    · subst hkx
      simp [hk]
    · simp [hkx]
  | none =>
    rw [alookup_append]
    by_cases hkx : k = x
    · subst hkx
      simp [hk, alookup]
    · cases hx : alookup m x with
      | some v => simp [hkx]
      | none => simp [hkx, alookup, fun h : x = k => hkx h.symm]

theorem alistUpsert_forall {α : Type} {m : List (String × α)} {k : String}
    {d : α} {f : α → α} {P : String × α → Prop}
    (hm : ∀ p ∈ m, P p) (hinit : P (k, f d))
    (hstep : ∀ v, P (k, v) → P (k, f v)) :
    ∀ p ∈ alistUpsert m k d f, P p := by
  intro p hp
  unfold alistUpsert at hp
  cases hk : alookup m k with
  | some v =>
    rw [hk] at hp
    unfold alistUpdate at hp
    rcases List.mem_map.mp hp with ⟨q, hq, hqp⟩
    by_cases hq1 : q.1 = k
    · rw [if_pos hq1] at hqp
      subst hqp
      have hPq := hm q hq
      rw [hq1]
      exact hstep q.2 (by rwa [← hq1, Prod.mk.eta])
    · rw [if_neg hq1] at hqp
      subst hqp
      exact hm q hq
  | none =>
    rw [hk] at hp
    rcases List.mem_append.mp hp with h | h
    · exact hm p h
    · rcases List.mem_singleton.mp h with rfl
      exact hinit

/-! ### Flattening the pipeline folds

The node map, the edge map and the combinations list each evolve by a
fold over the flattened list of per-row contributions, concatenated over
the active components in iteration order. -/

/-- All node contributions of one pipeline run, in execution order. -/
def allNodeContribs (data : List Record) (f : Filters) (citationCol : String) :
    List NodeContrib :=
  f.componentTypes.flatMap fun comp =>
    (selectRows data f comp).flatMap (rowNodeContribs comp citationCol)

/-- All edge contributions of one pipeline run, in execution order. -/
def allEdgeContribs (data : List Record) (f : Filters) (citationCol : String) :
    List EdgeContrib :=
  f.componentTypes.flatMap fun comp =>
    (selectRows data f comp).flatMap (rowEdgeContribs comp citationCol)

/-- All combinations pushed by one pipeline run, in execution order. -/
def allCombos (data : List Record) (f : Filters) (citationCol : String) :
    List Combination :=
  f.componentTypes.flatMap fun comp =>
    (selectRows data f comp).flatMap (rowCombos comp citationCol)

theorem processRow_fold_nodeMap (comp : Component) (citationCol : String) :
    ∀ (rows : List Record) (st : BuildState),
      (rows.foldl (processRow comp citationCol) st).nodeMap =
        (rows.flatMap (rowNodeContribs comp citationCol)).foldl
          applyNodeContrib st.nodeMap
  | [], _ => rfl
  | row :: rows, st => by
    rw [List.foldl_cons, processRow_fold_nodeMap comp citationCol rows,
      List.flatMap_cons, List.foldl_append]
    rfl

theorem processRow_fold_edgeMap (comp : Component) (citationCol : String) :
    ∀ (rows : List Record) (st : BuildState),
      (rows.foldl (processRow comp citationCol) st).edgeMap =
        (rows.flatMap (rowEdgeContribs comp citationCol)).foldl
          applyEdgeContrib st.edgeMap
  | [], _ => rfl
  | row :: rows, st => by
    rw [List.foldl_cons, processRow_fold_edgeMap comp citationCol rows,
      List.flatMap_cons, List.foldl_append]
    rfl

theorem processRow_fold_combos (comp : Component) (citationCol : String) :
    ∀ (rows : List Record) (st : BuildState),
      (rows.foldl (processRow comp citationCol) st).combinations =
        st.combinations ++ rows.flatMap (rowCombos comp citationCol)
  | [], _ => by simp
  | row :: rows, st => by
    rw [List.foldl_cons, processRow_fold_combos comp citationCol rows,
      List.flatMap_cons]
    show st.combinations ++ rowCombos comp citationCol row ++ _ = _
    rw [List.append_assoc]

theorem buildState_nodeMap (data : List Record) (f : Filters)
    (citationCol : String) :
    (buildState data f citationCol).nodeMap =
      (allNodeContribs data f citationCol).foldl applyNodeContrib [] := by
  unfold buildState allNodeContribs
  have hgen : ∀ (comps : List Component) (st0 : BuildState),
      (comps.foldl
        (fun st comp =>
          (selectRows data f comp).foldl (processRow comp citationCol) st)
        st0).nodeMap =
        (comps.flatMap fun comp =>
          (selectRows data f comp).flatMap
            (rowNodeContribs comp citationCol)).foldl applyNodeContrib
          st0.nodeMap := by
    intro comps
    induction comps with
    | nil => intro st0; rfl
    | cons comp rest ih =>
      intro st0
      rw [List.foldl_cons, ih, List.flatMap_cons, List.foldl_append,
        processRow_fold_nodeMap]
  exact hgen f.componentTypes ⟨[], [], []⟩

theorem buildState_edgeMap (data : List Record) (f : Filters)
    (citationCol : String) :
    (buildState data f citationCol).edgeMap =
      (allEdgeContribs data f citationCol).foldl applyEdgeContrib [] := by
  unfold buildState allEdgeContribs
  have hgen : ∀ (comps : List Component) (st0 : BuildState),
      (comps.foldl
        (fun st comp =>
          (selectRows data f comp).foldl (processRow comp citationCol) st)
        st0).edgeMap =
        (comps.flatMap fun comp =>
          (selectRows data f comp).flatMap
            (rowEdgeContribs comp citationCol)).foldl applyEdgeContrib
          st0.edgeMap := by
    intro comps
    induction comps with
    | nil => intro st0; rfl
    | cons comp rest ih =>
      intro st0
      rw [List.foldl_cons, ih, List.flatMap_cons, List.foldl_append,
        processRow_fold_edgeMap]
  exact hgen f.componentTypes ⟨[], [], []⟩

theorem buildState_combos (data : List Record) (f : Filters)
    (citationCol : String) :
    (buildState data f citationCol).combinations =
      allCombos data f citationCol := by
  unfold buildState allCombos
  have hgen : ∀ (comps : List Component) (st0 : BuildState),
      (comps.foldl
        (fun st comp =>
          (selectRows data f comp).foldl (processRow comp citationCol) st)
        st0).combinations =
        st0.combinations ++ comps.flatMap fun comp =>
          (selectRows data f comp).flatMap (rowCombos comp citationCol) := by
    intro comps
    induction comps with
    | nil => simp
    | cons comp rest ih =>
      intro st0
      rw [List.foldl_cons, ih, processRow_fold_combos, List.flatMap_cons,
        List.append_assoc]
  simpa using hgen f.componentTypes ⟨[], [], []⟩

/-! ### Filter pipeline lemmas and claim C2 -/

instance (comp : Component) : IsTotal Record (rsDescOrder comp) :=
  ⟨fun a b => le_total _ _⟩

instance (comp : Component) : IsTrans Record (rsDescOrder comp) :=
  ⟨fun _ _ _ hab hbc => le_trans hbc hab⟩

theorem mem_selectRows {data : List Record} {f : Filters} {c : Component}
    {r : Record} (h : r ∈ selectRows data f c) :
    r ∈ data ∧ passesComp f c r ∧
      f.yearRange.1 ≤ r.publication_year ∧
      r.publication_year ≤ f.yearRange.2 := by
  unfold selectRows at h
  have h1 := List.mem_of_mem_take h
  rw [List.mem_insertionSort] at h1
  rw [List.mem_filter] at h1
  obtain ⟨hyf, hpass⟩ := h1
  unfold yearFilter at hyf
  rw [List.mem_filter] at hyf
  obtain ⟨hdata, hyear⟩ := hyf
  refine ⟨hdata, of_decide_eq_true hpass, ?_, ?_⟩
  · exact (of_decide_eq_true hyear).1
  · exact (of_decide_eq_true hyear).2

/-- The `|| 0` in `filters[minRS_${component}] || 0` is the identity on
the stored rational threshold. -/
theorem minRSFor_eq_field (f : Filters) :
    f.minRSFor .theoretical = f.minRS_theoretical ∧
    f.minRSFor .methodological = f.minRS_methodological ∧
    f.minRSFor .cross = f.minRS_cross := by
  refine ⟨?_, ?_, ?_⟩ <;>
    · unfold Filters.minRSFor
      split <;> simp_all

/-- **C2.** For every record set, filter parameters and active category
`c` with threshold `t = minRS_c`: every record retained by the filter
pipeline for `c` satisfies `|rs_c| ≥ t`, has a non-empty code-list for
`c` and a publication year inside the inclusive year range; the retained
set has size at most `topN`; and the retained records are ordered
descending by `|rs_c|` (magnitude, not sign). -/
theorem selection_spec (data : List Record) (f : Filters) (c : Component) :
    (selectRows data f c).Forall (fun r =>
        f.minRSFor c ≤ |r.rsFor c| ∧ 0 < r.catLen c ∧
        f.yearRange.1 ≤ r.publication_year ∧
        r.publication_year ≤ f.yearRange.2) ∧
    (selectRows data f c).length ≤ f.topN ∧
    (selectRows data f c).Pairwise (fun a b => |b.rsFor c| ≤ |a.rsFor c|) := by
  refine ⟨?_, ?_, ?_⟩
  · rw [List.forall_iff_forall_mem]
    intro r hr
    obtain ⟨-, hpass, hy1, hy2⟩ := mem_selectRows hr
    exact ⟨hpass.2, hpass.1, hy1, hy2⟩
  · unfold selectRows
    calc (_ : List Record).length ≤ _ := le_of_eq (List.length_take _ _)
      _ ≤ f.topN := min_le_left _ _
  · unfold selectRows
    exact List.Pairwise.sublist (List.take_sublist _ _)
      (List.sorted_insertionSort (rsDescOrder c) _)

/-! ### Quantile estimator lemmas and claim C4 -/

/-- Linear interpolation formula of spec §4.3, stated over an explicitly
given ascending sorted sample: `pos = (n-1)·τ`, `base = ⌊pos⌋`,
`frac = pos - base`; if `base+1` is a valid index return
`sorted[base] + frac·(sorted[base+1] - sorted[base])`, else
`sorted[base]` (and the out-of-range defensive default is 0). -/
def quantileSpecFormula (sorted : List ℚ) (τ : ℚ) : ℚ :=
  let n := sorted.length
  let pos : ℚ := ((n : ℚ) - 1) * τ
  let base : Int := ⌊pos⌋
  let frac : ℚ := pos - (base : ℚ)
  if h1 : base.toNat + 1 < n then
    sorted.get ⟨base.toNat, by omega⟩ +
      frac * (sorted.get ⟨base.toNat + 1, h1⟩ - sorted.get ⟨base.toNat, by omega⟩)
  else if h2 : base.toNat < n then sorted.get ⟨base.toNat, h2⟩
  else 0

theorem quantile_eq_formula_sorted (xs : List ℚ) (τ : ℚ) :
    quantile xs τ = quantileSpecFormula (jsSortAsc xs) τ := by
  unfold quantile quantileSpecFormula
  dsimp only
  set sorted := jsSortAsc xs with hs
  set base : Int := ⌊((sorted.length : ℚ) - 1) * τ⌋ with hb
  by_cases h1 : base.toNat + 1 < sorted.length
  · have hlt : base.toNat < sorted.length := by omega
    rw [List.get?_eq_get h1, List.get?_eq_get hlt]
    simp [h1]
  · by_cases h2 : base.toNat < sorted.length
    · have hnone : sorted.get? (base.toNat + 1) = none :=
        List.get?_eq_none.mpr (by omega)
      rw [hnone, List.get?_eq_get h2]
      simp [h1, h2]
    · have hnone : sorted.get? base.toNat = none :=
        List.get?_eq_none.mpr (by omega)
      have hnone1 : sorted.get? (base.toNat + 1) = none :=
        List.get?_eq_none.mpr (by omega)
      rw [hnone, hnone1]
      simp [h1, h2]

theorem jsSortAsc_sorted (xs : List ℚ) : (jsSortAsc xs).Sorted (· ≤ ·) :=
  List.sorted_insertionSort _ _

theorem jsSortAsc_perm (xs : List ℚ) : (jsSortAsc xs).Perm xs :=
  List.perm_insertionSort _ _

theorem quantile_zero_eq_head (xs : List ℚ) (hxs : xs ≠ []) :
    ∀ a tl, jsSortAsc xs = a :: tl → quantile xs 0 = a := by
  intro a tl heq
  unfold quantile
  rw [heq]
  simp only [mul_zero, Int.floor_zero, Int.toNat_zero, Int.cast_zero, sub_zero,
    sub_self]
  cases tl with
  | nil => simp
  | cons b tl2 => simp [List.get?]

theorem quantile_one_eq_get (xs : List ℚ) (hxs : xs ≠ [])
    (hlen : xs.length - 1 < (jsSortAsc xs).length) :
    quantile xs 1 = (jsSortAsc xs).get ⟨xs.length - 1, hlen⟩ := by
  have hlxs : (jsSortAsc xs).length = xs.length :=
    (jsSortAsc_perm xs).length_eq
  have hpos : 0 < xs.length := List.length_pos.mpr hxs
  unfold quantile
  simp only [mul_one, hlxs]
  have hcast : ((xs.length : ℚ) - 1) = (((xs.length : ℤ) - 1 : ℤ) : ℚ) := by
    push_cast
    ring
  rw [hcast, Int.floor_intCast]
  have htn : ((xs.length : ℤ) - 1).toNat = xs.length - 1 := by omega
  rw [htn]
  have hnone : (jsSortAsc xs).get? (xs.length - 1 + 1) = none :=
    List.get?_eq_none.mpr (by omega)
  rw [hnone, List.get?_eq_get hlen]

/-- **C4.** The quantile function on a non-empty sample `xs` and
`τ ∈ [0,1]` returns the linearly interpolated order statistic of the
ascending sort of `xs` (clause 1, stated against any ascending sorted
permutation of `xs` and the spec's index formula); consequently
`quantile xs 0` is the minimum of `xs`, `quantile xs 1` is the maximum
of `xs`, and `quantile [v] τ = v` for every `v`. -/
theorem quantile_spec (xs : List ℚ) (τ : ℚ) (hxs : xs ≠ [])
    (h0 : 0 ≤ τ) (h1 : τ ≤ 1) :
    (∀ sorted : List ℚ, sorted.Perm xs → sorted.Sorted (· ≤ ·) →
        quantile xs τ = quantileSpecFormula sorted τ) ∧
    (quantile xs 0 ∈ xs ∧ ∀ y ∈ xs, quantile xs 0 ≤ y) ∧
    (quantile xs 1 ∈ xs ∧ ∀ y ∈ xs, y ≤ quantile xs 1) ∧
    (∀ v : ℚ, quantile [v] τ = v) := by
  have hperm := jsSortAsc_perm xs
  have hsorted := jsSortAsc_sorted xs
  have hlxs : (jsSortAsc xs).length = xs.length := hperm.length_eq
  have hpos : 0 < xs.length := List.length_pos.mpr hxs
  refine ⟨?_, ?_, ?_, ?_⟩
  · intro sorted hp hsort
    rw [quantile_eq_formula_sorted]
    have : jsSortAsc xs = sorted :=
      List.eq_of_perm_of_sorted (hperm.trans hp.symm) hsorted hsort
    rw [this]
  · obtain ⟨a, tl, heq⟩ : ∃ a tl, jsSortAsc xs = a :: tl := by
      cases hsort : jsSortAsc xs with
      | nil =>
        exfalso
        rw [hsort] at hlxs
        simp at hlxs
        omega
      | cons a tl => exact ⟨a, tl, rfl⟩
    rw [quantile_zero_eq_head xs hxs a tl heq]
    constructor
    · have : a ∈ jsSortAsc xs := by rw [heq]; exact List.mem_cons_self a tl
      exact hperm.mem_iff.mp this
    · intro y hy
      have hy2 : y ∈ a :: tl := by rw [← heq]; exact hperm.mem_iff.mpr hy
      rcases List.mem_cons.mp hy2 with rfl | hy3
      · exact le_refl y
      · rw [heq] at hsorted
        exact List.rel_of_sorted_cons hsorted y hy3
  · have hlen : xs.length - 1 < (jsSortAsc xs).length := by omega
    rw [quantile_one_eq_get xs hxs hlen]
    constructor
    · exact hperm.mem_iff.mp (List.get_mem _ _ _)
    · intro y hy
      have hy2 : y ∈ jsSortAsc xs := hperm.mem_iff.mpr hy
      obtain ⟨i, hi⟩ := List.mem_iff_get.mp hy2
      rw [← hi]
      refine hsorted.rel_get_of_le ?_
      have := i.isLt
      simp only [Fin.mk_le_mk, Fin.le_def]
      omega
  · intro v
    have hone : jsSortAsc [v] = [v] := rfl
    unfold quantile
    rw [hone]
    simp

/-! ### Edge map lemmas, claims C3 and C5 -/

theorem canonPair_comm (x y : String) : canonPair x y = canonPair y x := by
  unfold canonPair
  by_cases hyx : strLtb y x = true
  · have hxy : strLtb x y = false := by
      have hasy := charListLtb_asymm y.data x.data hyx
      simpa [strLtb] using hasy
    simp [hyx, hxy]
  · by_cases hxy : strLtb x y = true
    · simp [hyx, hxy]
    · have hdata : x.data = y.data :=
        charListLtb_total x.data y.data (by simpa [strLtb] using hxy)
          (by simpa [strLtb] using hyx)
      rw [String.ext hdata]

theorem canonKey_comm (x y : String) : canonKey x y = canonKey y x := by
  unfold canonKey
  rw [canonPair_comm]

theorem alookup_none_iff {α : Type} (m : List (String × α)) (k : String) :
    alookup m k = none ↔ ∀ p ∈ m, p.1 ≠ k := by
  induction m with
  | nil => simp [alookup]
  | cons p rest ih => by_cases h : p.1 = k <;> simp [alookup, h, ih]

theorem edgeFold_fresh :
    ∀ (L : List EdgeContrib) (m : List (String × Edge)),
      ((L.map fun c => canonKey c.a c.b).Nodup) →
      (∀ c ∈ L, alookup m (canonKey c.a c.b) = none) →
      L.foldl applyEdgeContrib m =
        m ++ L.map fun c =>
          (canonKey c.a c.b,
            Edge.contribute c.rs c.cit (Edge.init c.a c.b c.comp))
  | [], m, _, _ => by simp
  | c :: L, m, hnd, hfresh => by
    rw [List.foldl_cons]
    have hnone := hfresh c (List.mem_cons_self c L)
    have happly : applyEdgeContrib m c =
        m ++ [(canonKey c.a c.b,
          Edge.contribute c.rs c.cit (Edge.init c.a c.b c.comp))] := by
      unfold applyEdgeContrib alistUpsert
      rw [hnone]
    rw [happly, edgeFold_fresh L _ (List.Nodup.of_cons hnd) ?hfr]
    case hfr =>
      intro c' hc'
      rw [alookup_append, hfresh c' (List.mem_cons_of_mem _ hc')]
      have hne : canonKey c'.a c'.b ≠ canonKey c.a c.b := by
        intro hcontra
        have hmem : canonKey c.a c.b ∈ L.map fun d => canonKey d.a d.b := by
          rw [← hcontra]
          exact List.mem_map_of_mem _ hc'
        rw [List.map_cons, List.nodup_cons] at hnd
        exact hnd.1 hmem
      have hne2 : ¬ canonKey c.a c.b = canonKey c'.a c'.b := fun h =>
        hne h.symm
      simp [alookup, hne2]
    rw [List.map_cons, List.append_assoc]
    rfl

theorem length_listPairs {α : Type} :
    ∀ l : List α, 2 * (listPairs l).length = l.length * (l.length - 1)
  | [] => rfl
  | x :: xs => by
    have ih := length_listPairs xs
    simp only [listPairs, List.length_append, List.length_map,
      List.length_cons, Nat.succ_sub_one]
    cases hn : xs.length with
    | zero =>
      rw [hn] at ih
      simp only [Nat.zero_sub, Nat.mul_zero, Nat.zero_mul] at ih
      omega
    | succ k =>
      rw [hn] at ih
      have hih : 2 * (listPairs xs).length = (k + 1) * k := by
        simpa using ih
      have hprod : (k + 1 + 1) * (k + 1) = (k + 1) * k + 2 * (k + 1) := by
        ring
      rw [hprod]
      omega

/-- **C3.** Aggregating a single `theoretical` (or `methodological`)
record whose code-list for that category has `k` distinct codes produces
exactly `k·(k-1)/2` edges — one per unordered pair of distinct codes, in
loop order, each with count 1 — whereas aggregating a single `cross`
record with `p` pairs produces exactly the `p` edges given by those
pairs, each with count 1 (no clique expansion). The hypotheses on
canonical keys hold for any codes free of the `--` separator, in
particular for all JEL codes. -/
theorem clique_vs_direct_spec (r : Record) (citationCol : String)
    (hdistinct : r.theoretical.Nodup)
    (hdistinctM : r.methodological.Nodup)
    (hkeysT : ((listPairs r.theoretical).map fun p => canonKey p.1 p.2).Nodup)
    (hkeysM :
      ((listPairs r.methodological).map fun p => canonKey p.1 p.2).Nodup)
    (hkeysC : (r.cross.map fun p => canonKey p.1 p.2).Nodup) :
    ((processRow .theoretical citationCol ⟨[], [], []⟩ r).edgeMap.map
        Prod.fst) = ((listPairs r.theoretical).map fun p => canonKey p.1 p.2) ∧
    ((processRow .theoretical citationCol ⟨[], [], []⟩ r).edgeMap.Forall
      fun p => p.2.count = 1) ∧
    (processRow .theoretical citationCol ⟨[], [], []⟩ r).edgeMap.length =
      r.theoretical.length * (r.theoretical.length - 1) / 2 ∧
    ((processRow .methodological citationCol ⟨[], [], []⟩ r).edgeMap.map
        Prod.fst) =
      ((listPairs r.methodological).map fun p => canonKey p.1 p.2) ∧
    ((processRow .methodological citationCol ⟨[], [], []⟩ r).edgeMap.Forall
      fun p => p.2.count = 1) ∧
    (processRow .methodological citationCol ⟨[], [], []⟩ r).edgeMap.length =
      r.methodological.length * (r.methodological.length - 1) / 2 ∧
    ((processRow .cross citationCol ⟨[], [], []⟩ r).edgeMap.map Prod.fst) =
      (r.cross.map fun p => canonKey p.1 p.2) ∧
    ((processRow .cross citationCol ⟨[], [], []⟩ r).edgeMap.Forall
      fun p => p.2.count = 1) ∧
    (processRow .cross citationCol ⟨[], [], []⟩ r).edgeMap.length =
      r.cross.length := by
  have hT : (processRow .theoretical citationCol ⟨[], [], []⟩ r).edgeMap =
      (rowEdgeContribs .theoretical citationCol r).foldl applyEdgeContrib [] :=
    rfl
  have hM : (processRow .methodological citationCol ⟨[], [], []⟩ r).edgeMap =
      (rowEdgeContribs .methodological citationCol r).foldl applyEdgeContrib
        [] := rfl
  have hC : (processRow .cross citationCol ⟨[], [], []⟩ r).edgeMap =
      (rowEdgeContribs .cross citationCol r).foldl applyEdgeContrib [] := rfl
  have hkT : ((rowEdgeContribs .theoretical citationCol r).map
      fun c => canonKey c.a c.b).Nodup := by
    unfold rowEdgeContribs
    rw [List.map_map]
    exact hkeysT
  have hkM : ((rowEdgeContribs .methodological citationCol r).map
      fun c => canonKey c.a c.b).Nodup := by
    unfold rowEdgeContribs
    rw [List.map_map]
    exact hkeysM
  have hkC : ((rowEdgeContribs .cross citationCol r).map
      fun c => canonKey c.a c.b).Nodup := by
    unfold rowEdgeContribs
    rw [List.map_map]
    exact hkeysC
  have hfoldT := edgeFold_fresh (rowEdgeContribs .theoretical citationCol r) []
    hkT (by intro c _; rfl)
  have hfoldM := edgeFold_fresh
    (rowEdgeContribs .methodological citationCol r) [] hkM (by intro c _; rfl)
  have hfoldC := edgeFold_fresh (rowEdgeContribs .cross citationCol r) []
    hkC (by intro c _; rfl)
  rw [List.nil_append] at hfoldT hfoldM hfoldC
  refine ⟨?_, ?_, ?_, ?_, ?_, ?_, ?_, ?_, ?_⟩
  · rw [hT, hfoldT]
    unfold rowEdgeContribs
    simp [List.map_map]
  · rw [hT, hfoldT, List.forall_iff_forall_mem]
    intro p hp
    rcases List.mem_map.mp hp with ⟨c, -, rfl⟩
    rfl
  · rw [hT, hfoldT]
    have h2 := length_listPairs r.theoretical
    unfold rowEdgeContribs
    simp only [List.length_map]
    omega
  · rw [hM, hfoldM]
    unfold rowEdgeContribs
    simp [List.map_map]
  · rw [hM, hfoldM, List.forall_iff_forall_mem]
    intro p hp
    rcases List.mem_map.mp hp with ⟨c, -, rfl⟩
    rfl
  · rw [hM, hfoldM]
    have h2 := length_listPairs r.methodological
    unfold rowEdgeContribs
    simp only [List.length_map]
    omega
  · rw [hC, hfoldC]
    unfold rowEdgeContribs
    simp [List.map_map]
  · rw [hC, hfoldC, List.forall_iff_forall_mem]
    intro p hp
    rcases List.mem_map.mp hp with ⟨c, -, rfl⟩
    rfl
  · rw [hC, hfoldC]
    unfold rowEdgeContribs
    simp

theorem alistUpdate_keys {α : Type} (m : List (String × α)) (k : String)
    (f : α → α) : (alistUpdate m k f).map Prod.fst = m.map Prod.fst := by
  induction m with
  | nil => rfl
  | cons p rest ih =>
    by_cases h : p.1 = k <;> simp [alistUpdate, h] <;>
      simpa [alistUpdate] using ih

theorem alistUpsert_keys_nodup {α : Type} (m : List (String × α)) (k : String)
    (d : α) (f : α → α) (h : (m.map Prod.fst).Nodup) :
    ((alistUpsert m k d f).map Prod.fst).Nodup := by
  unfold alistUpsert
  cases hk : alookup m k with
  | some v => rw [alistUpdate_keys]; exact h
  | none =>
    rw [List.map_append]
    have hnotmem : k ∉ m.map Prod.fst := by
      intro hmem
      rcases List.mem_map.mp hmem with ⟨p, hp, hpk⟩
      exact (alookup_none_iff m k).mp hk p hp hpk
    simp [List.nodup_append, h, hnotmem]

theorem edgeFold_key_inv :
    ∀ (L : List EdgeContrib) (m : List (String × Edge)),
      (∀ p ∈ m, p.1 = canonKey p.2.source p.2.target) →
      ∀ p ∈ L.foldl applyEdgeContrib m, p.1 = canonKey p.2.source p.2.target
  | [], _, hm => hm
  | c :: L, m, hm => by
    rw [List.foldl_cons]
    refine edgeFold_key_inv L _ ?_
    intro p hp
    refine alistUpsert_forall hm ?_ ?_ p hp
    · rfl
    · intro v hv
      exact hv

theorem edgeFold_keys_nodup :
    ∀ (L : List EdgeContrib) (m : List (String × Edge)),
      (m.map Prod.fst).Nodup →
      ((L.foldl applyEdgeContrib m).map Prod.fst).Nodup
  | [], _, hm => hm
  | c :: L, m, hm => by
    rw [List.foldl_cons]
    exact edgeFold_keys_nodup L _ (alistUpsert_keys_nodup _ _ _ _ hm)

/-- Concrete records and filters exercising the edge-orientation
behaviour: identical rows whose only difference is the order of the two
theoretical codes. -/
def recAB : Record :=
  { theoretical := ["A10", "B20"], methodological := [], cross := []
    rs_theoretical := 1, rs_methodological := 0, rs_cross := 0
    publication_year := 2010, citations := [] }

def recBA : Record := { recAB with theoretical := ["B20", "A10"] }

def filtersTheo : Filters :=
  { yearRange := (2009, 2019), minRS_theoretical := 0
    minRS_methodological := 0, minRS_cross := 0, topN := 50
    componentTypes := [.theoretical] }

/-- **C5 (counterexample).** Building the graph from a record with
theoretical codes `["A10","B20"]` and from one with `["B20","A10"]`
yields different edge entries: the map key is the same, but the
`source`/`target` fields keep the orientation of the first encounter, so
the resulting edge lists are not equal. -/
theorem edge_orientation_counterexample :
    ((buildNetworkData [recAB] filtersTheo "5years" 0).edges.map
      fun e => e.source) = ["A10"] ∧
    ((buildNetworkData [recBA] filtersTheo "5years" 0).edges.map
      fun e => e.source) = ["B20"] ∧
    (buildNetworkData [recAB] filtersTheo "5years" 0).edges ≠
      (buildNetworkData [recBA] filtersTheo "5years" 0).edges := by
  have h1 : ((buildNetworkData [recAB] filtersTheo "5years" 0).edges.map
      fun e => e.source) = ["A10"] := by decide
  have h2 : ((buildNetworkData [recBA] filtersTheo "5years" 0).edges.map
      fun e => e.source) = ["B20"] := by decide
  refine ⟨h1, h2, fun hcontra => ?_⟩
  rw [hcontra, h2] at h1
  exact absurd h1 (by decide)

/-- **C5 (amended).** Edge keys are symmetric in the endpoint order:
a contribution with codes `(a, b)` and one with `(b, a)` insert under
the same canonical key (the two codes sorted, then joined), with
identical aggregate fields (`weight`, `count`, `betas`, `citations`,
`type`) and the same unordered endpoint pair — only the stored
`source`/`target` orientation follows the encounter order. Moreover, in
every graph the pipeline builds, no unordered pair of endpoint codes
appears as two distinct edge entries (in either orientation). -/
theorem edge_key_symmetry (a b : String) (comp : Component) (rs cit : ℚ)
    (data : List Record) (f : Filters) (w : String) (q : ℚ) :
    canonKey a b = canonKey b a ∧
    applyEdgeContrib [] ⟨a, b, comp, rs, cit⟩ =
      [(canonKey a b, Edge.contribute rs cit (Edge.init a b comp))] ∧
    applyEdgeContrib [] ⟨b, a, comp, rs, cit⟩ =
      [(canonKey a b, Edge.contribute rs cit (Edge.init b a comp))] ∧
    (Edge.contribute rs cit (Edge.init a b comp)).weight =
      (Edge.contribute rs cit (Edge.init b a comp)).weight ∧
    (Edge.contribute rs cit (Edge.init a b comp)).count =
      (Edge.contribute rs cit (Edge.init b a comp)).count ∧
    (Edge.contribute rs cit (Edge.init a b comp)).betas =
      (Edge.contribute rs cit (Edge.init b a comp)).betas ∧
    (Edge.contribute rs cit (Edge.init a b comp)).citations =
      (Edge.contribute rs cit (Edge.init b a comp)).citations ∧
    (Edge.contribute rs cit (Edge.init a b comp)).type =
      (Edge.contribute rs cit (Edge.init b a comp)).type ∧
    (Edge.contribute rs cit (Edge.init b a comp)).source =
      (Edge.contribute rs cit (Edge.init a b comp)).target ∧
    (Edge.contribute rs cit (Edge.init b a comp)).target =
      (Edge.contribute rs cit (Edge.init a b comp)).source ∧
    (buildNetworkData data f w q).edges.Pairwise (fun e1 e2 =>
      ¬ ((e1.source = e2.source ∧ e1.target = e2.target) ∨
         (e1.source = e2.target ∧ e1.target = e2.source))) := by
  refine ⟨canonKey_comm a b, rfl, ?_, rfl, rfl, rfl, rfl, rfl, rfl, rfl, ?_⟩
  · show alistUpsert [] (canonKey b a) _ _ = _
    rw [← canonKey_comm a b]
    rfl
  · have hkeys : (((buildState data f (getCitationColumn w)).edgeMap.map
        Prod.fst)).Nodup := by
      rw [buildState_edgeMap]
      exact edgeFold_keys_nodup _ [] List.nodup_nil
    have hinv : ∀ p ∈ (buildState data f (getCitationColumn w)).edgeMap,
        p.1 = canonKey p.2.source p.2.target := by
      rw [buildState_edgeMap]
      exact edgeFold_key_inv _ [] (by intro p hp; cases hp)
    show ((buildState data f (getCitationColumn w)).edgeMap.map
      fun p => finalizeEdge q p.2).Pairwise _
    rw [List.pairwise_map]
    have hpw : ((buildState data f (getCitationColumn w)).edgeMap.map
        Prod.fst).Pairwise (· ≠ ·) := hkeys
    rw [List.pairwise_map] at hpw
    refine hpw.imp_of_mem ?_
    intro p1 p2 hp1 hp2 hne hcontra
    apply hne
    rw [hinv p1 hp1, hinv p2 hp2]
    have hs1 : (finalizeEdge q p1.2).source = p1.2.source := rfl
    have ht1 : (finalizeEdge q p1.2).target = p1.2.target := rfl
    have hs2 : (finalizeEdge q p2.2).source = p2.2.source := rfl
    have ht2 : (finalizeEdge q p2.2).target = p2.2.target := rfl
    rcases hcontra with ⟨hs, ht⟩ | ⟨hs, ht⟩
    · rw [hs1, hs2] at hs
      rw [ht1, ht2] at ht
      rw [hs, ht]
    · rw [hs1, ht2] at hs
      rw [ht1, hs2] at ht
      rw [hs, ht, canonKey_comm]

/-! ### Node map lemmas, claims C10, C8, C7 -/

theorem category_contribute (comp : Component) (rs : ℚ) (y : Int) (cit : ℚ)
    (n : Node) : (Node.contribute comp rs y cit n).category = n.category := by
  cases comp <;> rfl

theorem id_contribute (comp : Component) (rs : ℚ) (y : Int) (cit : ℚ)
    (n : Node) : (Node.contribute comp rs y cit n).id = n.id := by
  cases comp <;> rfl

theorem nodeFold_forall (P : String × Node → Prop) :
    ∀ (L : List NodeContrib) (m : List (String × Node)),
      (∀ p ∈ m, P p) →
      (∀ c ∈ L,
        P (c.code, Node.contribute c.comp c.rs c.year c.cit
          (Node.init c.code c.defaultCat)) ∧
        ∀ v, P (c.code, v) →
          P (c.code, Node.contribute c.comp c.rs c.year c.cit v)) →
      ∀ p ∈ L.foldl applyNodeContrib m, P p
  | [], _, hm, _ => hm
  | c :: L, m, hm, hL => by
    rw [List.foldl_cons]
    refine nodeFold_forall P L _ ?_
      (fun c' hc' => hL c' (List.mem_cons_of_mem _ hc'))
    intro p hp
    exact alistUpsert_forall hm (hL c (List.mem_cons_self c L)).1
      (hL c (List.mem_cons_self c L)).2 p hp

theorem edgeFold_forall (P : String × Edge → Prop) :
    ∀ (L : List EdgeContrib) (m : List (String × Edge)),
      (∀ p ∈ m, P p) →
      (∀ c ∈ L,
        P (canonKey c.a c.b,
          Edge.contribute c.rs c.cit (Edge.init c.a c.b c.comp)) ∧
        ∀ v, P (canonKey c.a c.b, v) →
          P (canonKey c.a c.b, Edge.contribute c.rs c.cit v)) →
      ∀ p ∈ L.foldl applyEdgeContrib m, P p
  | [], _, hm, _ => hm
  | c :: L, m, hm, hL => by
    rw [List.foldl_cons]
    refine edgeFold_forall P L _ ?_
      (fun c' hc' => hL c' (List.mem_cons_of_mem _ hc'))
    intro p hp
    exact alistUpsert_forall hm (hL c (List.mem_cons_self c L)).1
      (hL c (List.mem_cons_self c L)).2 p hp

/-- **C10.** Every node in the pipeline's output has a contribution
count of at least 1, a count equal to the length of its accumulated
citation list, and a count equal to the sum of its three per-category
counts; hence the divisor of the derived `avgRS = totalRS / count` is
never zero. -/
theorem node_count_spec (data : List Record) (f : Filters) (w : String)
    (q : ℚ) :
    ((buildNetworkData data f w q).nodes).Forall fun n =>
      1 ≤ n.count ∧ n.count = n.citations.length ∧
      n.count = n.count_theoretical + n.count_methodological + n.count_cross ∧
      ((n.count : ℚ) ≠ 0) := by
  rw [List.forall_iff_forall_mem]
  intro n hn
  have hmap : (buildNetworkData data f w q).nodes =
      (buildState data f (getCitationColumn w)).nodeMap.map
        fun p => finalizeNode q p.2 := rfl
  rw [hmap] at hn
  rcases List.mem_map.mp hn with ⟨p, hp, rfl⟩
  have hinv : ∀ p ∈ (buildState data f (getCitationColumn w)).nodeMap,
      1 ≤ p.2.count ∧ p.2.count = p.2.citations.length ∧
      p.2.count = p.2.count_theoretical + p.2.count_methodological +
        p.2.count_cross := by
    rw [buildState_nodeMap]
    refine nodeFold_forall _ _ [] (by intro p hp; cases hp) ?_
    intro c _
    constructor
    · cases c.comp <;>
        simp [Node.contribute, Node.init]
    · intro v hv
      dsimp only at hv ⊢
      obtain ⟨h1, h2, h3⟩ := hv
      cases c.comp <;>
        · dsimp only [Node.contribute]
          refine ⟨by omega, ?_, by omega⟩
          simp only [List.length_append, List.length_cons,
            List.length_nil]
          omega
  obtain ⟨h1, h2, h3⟩ := hinv p hp
  refine ⟨h1, h2, h3, ?_⟩
  have hne : p.2.count ≠ 0 := by omega
  exact_mod_cast Nat.cast_ne_zero.mpr hne

theorem alookup_applyNodeContrib (m : List (String × Node)) (c : NodeContrib)
    (x : String) :
    alookup (applyNodeContrib m c) x =
      if c.code = x then
        some (Node.contribute c.comp c.rs c.year c.cit
          ((alookup m c.code).getD (Node.init c.code c.defaultCat)))
      else alookup m x :=
  alookup_alistUpsert m c.code _ _ x

theorem nodeFold_category :
    ∀ (L : List NodeContrib) (m : List (String × Node)) (x : String),
      (alookup (L.foldl applyNodeContrib m) x).map Node.category =
        match alookup m x with
        | some n => some n.category
        | none => (L.find? fun c => c.code == x).map NodeContrib.defaultCat
  | [], m, x => by cases h : alookup m x <;> simp [h]
  | c :: L, m, x => by
    rw [List.foldl_cons, nodeFold_category L _ x, alookup_applyNodeContrib]
    by_cases hcx : c.code = x
    · subst hcx
      rw [if_pos rfl]
      have hfind : ((c :: L).find? fun d => d.code == c.code) = some c :=
        List.find?_cons_of_pos _ (by simp)

      rw [hfind]
      cases hmx : alookup m c.code <;>
        simp [category_contribute, Node.init]
    · rw [if_neg hcx]
      have hfind : ((c :: L).find? fun d => d.code == x) =
          L.find? fun d => d.code == x :=
        List.find?_cons_of_neg _ (by simp [hcx])
      rw [hfind]

theorem nodeMap_id_inv (data : List Record) (f : Filters) (col : String) :
    ∀ p ∈ (buildState data f col).nodeMap, p.1 = p.2.id := by
  rw [buildState_nodeMap]
  refine nodeFold_forall _ _ [] (by intro p hp; cases hp) ?_
  intro c _
  constructor
  · show c.code = (Node.contribute c.comp c.rs c.year c.cit
      (Node.init c.code c.defaultCat)).id
    rw [id_contribute]
    rfl
  · intro v hv
    show _ = (Node.contribute c.comp c.rs c.year c.cit v).id
    rw [id_contribute]
    exact hv

theorem find?_finalized_eq_alookup (q : ℚ) :
    ∀ (m : List (String × Node)) (x : String),
      (∀ p ∈ m, p.1 = p.2.id) →
      ((m.map fun p => finalizeNode q p.2).find? fun n => n.id == x) =
        (alookup m x).map (finalizeNode q)
  | [], _, _ => rfl
  | p :: rest, x, hinv => by
    have hid : p.1 = p.2.id := hinv p (List.mem_cons_self p rest)
    rw [List.map_cons]
    by_cases h : p.1 = x
    · have hpos : ((finalizeNode q p.2).id == x) = true := by
        have : (finalizeNode q p.2).id = p.2.id := rfl
        rw [this, ← hid, h]
        simp
      rw [List.find?_cons_of_pos (p := fun n : FinalNode => n.id == x) _ hpos]
      simp [alookup, h]
    · have hneg : ¬ ((finalizeNode q p.2).id == x) = true := by
        have hfin : (finalizeNode q p.2).id = p.2.id := rfl
        rw [hfin, ← hid]
        simp [h]
      rw [List.find?_cons_of_neg (p := fun n : FinalNode => n.id == x) _ hneg,
        find?_finalized_eq_alookup q rest x
          (fun p hp => hinv p (List.mem_cons_of_mem _ hp))]
      simp [alookup, h]

/-- **C8.** A node's category label is the category context in which its
code was first encountered — the `defaultCategory` of the first node
contribution carrying that code, in execution order — and later
contributions never change it; and every `cross` pair contributes its
first member as a `methodological` node and its second member as a
`theoretical` node. -/
theorem node_category_first_wins (data : List Record) (f : Filters)
    (w : String) (q : ℚ) (x : String) (r : Record) (col : String) :
    (((buildNetworkData data f w q).nodes.find? fun n => n.id == x).map
        fun n => n.category) =
      (((allNodeContribs data f (getCitationColumn w)).find?
        fun c => c.code == x).map NodeContrib.defaultCat) ∧
    (r.cross.Forall fun p =>
      (⟨p.1, .methodological, .cross, r.rsFor .cross, r.publication_year,
          jsCitation r col⟩ : NodeContrib) ∈ rowNodeContribs .cross col r ∧
      (⟨p.2, .theoretical, .cross, r.rsFor .cross, r.publication_year,
          jsCitation r col⟩ : NodeContrib) ∈ rowNodeContribs .cross col r) := by
  constructor
  · have hnodes : (buildNetworkData data f w q).nodes =
        (buildState data f (getCitationColumn w)).nodeMap.map
          fun p => finalizeNode q p.2 := rfl
    rw [hnodes, find?_finalized_eq_alookup q _ x
      (nodeMap_id_inv data f (getCitationColumn w))]
    have hcat : ∀ n : Node, (finalizeNode q n).category = n.category :=
      fun n => rfl
    rw [Option.map_map]
    have hcomp : ((fun n : FinalNode => n.category) ∘ finalizeNode q) =
        Node.category := by
      funext n
      exact hcat n
    rw [hcomp, buildState_nodeMap, nodeFold_category _ [] x]
    rfl
  · rw [List.forall_iff_forall_mem]
    intro p hp
    constructor
    · unfold rowNodeContribs
      rw [List.mem_flatMap]
      exact ⟨p, hp, List.mem_cons_self _ _⟩
    · unfold rowNodeContribs
      rw [List.mem_flatMap]
      refine ⟨p, hp, ?_⟩
      exact List.mem_cons_of_mem _ (List.mem_cons_self _ _)

theorem isShortCode_normalizeCode (c : String) :
    isShortCode (normalizeCode c) = false := by
  unfold normalizeCode
  by_cases h : isShortCode c = true
  · rw [if_pos h]
    cases hd : c.data with
    | nil => rw [isShortCode, hd] at h; exact absurd h (by simp)
    | cons a tl =>
      cases tl with
      | nil => rw [isShortCode, hd] at h; exact absurd h (by simp)
      | cons b tl2 =>
        cases tl2 with
        | nil =>
          have happ : (c ++ "0").data = [a, b, '0'] := by
            rw [String.data_append, hd]
            rfl
          rw [isShortCode, happ]
        | cons d tl3 => rw [isShortCode, hd] at h; exact absurd h (by simp)
  · rw [if_neg h]
    exact Bool.not_eq_true _ ▸ (by simpa using h)

theorem mem_allNodeContribs {data : List Record} {f : Filters} {col : String}
    {c : NodeContrib} (hc : c ∈ allNodeContribs data f col) :
    ∃ comp, ∃ row ∈ data, c ∈ rowNodeContribs comp col row := by
  unfold allNodeContribs at hc
  rw [List.mem_flatMap] at hc
  obtain ⟨comp, -, hc2⟩ := hc
  rw [List.mem_flatMap] at hc2
  obtain ⟨row, hrow, hc3⟩ := hc2
  exact ⟨comp, row, (mem_selectRows hrow).1, hc3⟩

theorem rowNodeContribs_code_mem {comp : Component} {col : String}
    {row : Record} {c : NodeContrib} (hc : c ∈ rowNodeContribs comp col row) :
    c.code ∈ row.theoretical ∨ c.code ∈ row.methodological ∨
      (∃ p ∈ row.cross, c.code = p.1 ∨ c.code = p.2) := by
  cases comp with
  | theoretical =>
    unfold rowNodeContribs at hc
    rcases List.mem_map.mp hc with ⟨code, hcode, rfl⟩
    exact Or.inl hcode
  | methodological =>
    unfold rowNodeContribs at hc
    rcases List.mem_map.mp hc with ⟨code, hcode, rfl⟩
    exact Or.inr (Or.inl hcode)
  | cross =>
    unfold rowNodeContribs at hc
    rw [List.mem_flatMap] at hc
    obtain ⟨p, hp, hmem⟩ := hc
    rcases List.mem_cons.mp hmem with rfl | hmem2
    · exact Or.inr (Or.inr ⟨p, hp, Or.inl rfl⟩)
    · rcases List.mem_singleton.mp hmem2 with rfl
      exact Or.inr (Or.inr ⟨p, hp, Or.inr rfl⟩)

/-- **C7.** Every code consisting of a single uppercase letter followed
by one digit is normalized by appending a trailing zero, and the
normalization is applied to all three category code-lists (both members
of every `cross` pair included) before any grouping or keying, so no
node of any pipeline run over normalized records carries a short-form
id — in particular the short and expanded forms of a code never appear
as distinct nodes. -/
theorem normalization_spec (c0 : String) (hshort : isShortCode c0 = true)
    (data : List Record) (f : Filters) (w : String) (q : ℚ) :
    normalizeCode c0 = c0 ++ "0" ∧
    ((buildNetworkData (data.map normalizeRecord) f w q).nodes).Forall
      fun n => isShortCode n.id = false := by
  constructor
  · unfold normalizeCode
    rw [if_pos hshort]
  · rw [List.forall_iff_forall_mem]
    intro n hn
    have hmap : (buildNetworkData (data.map normalizeRecord) f w q).nodes =
        (buildState (data.map normalizeRecord) f
          (getCitationColumn w)).nodeMap.map fun p => finalizeNode q p.2 :=
      rfl
    rw [hmap] at hn
    rcases List.mem_map.mp hn with ⟨p, hp, rfl⟩
    have hfin : (finalizeNode q p.2).id = p.2.id := rfl
    rw [hfin]
    have hcontrib : ∀ c ∈ allNodeContribs (data.map normalizeRecord) f
        (getCitationColumn w), isShortCode c.code = false := by
      intro c hc
      obtain ⟨comp, row, hrow, hcrow⟩ := mem_allNodeContribs hc
      rcases List.mem_map.mp hrow with ⟨orig, -, rfl⟩
      rcases rowNodeContribs_code_mem hcrow with hmem | hmem | ⟨pr, hpr, hside⟩
      · rcases List.mem_map.mp hmem with ⟨c', -, heq⟩
        rw [← heq]
        exact isShortCode_normalizeCode c'
      · rcases List.mem_map.mp hmem with ⟨c', -, heq⟩
        rw [← heq]
        exact isShortCode_normalizeCode c'
      · rcases List.mem_map.mp hpr with ⟨pr', -, rfl⟩
        rcases hside with heq | heq
        · rw [heq]
          exact isShortCode_normalizeCode pr'.1
        · rw [heq]
          exact isShortCode_normalizeCode pr'.2
    have hinv : ∀ p ∈ (buildState (data.map normalizeRecord) f
        (getCitationColumn w)).nodeMap, isShortCode p.2.id = false := by
      rw [buildState_nodeMap]
      refine nodeFold_forall _ _ [] (by intro p hp; cases hp) ?_
      intro c hc
      constructor
      · rw [id_contribute]
        exact hcontrib c hc
      · intro v hv
        rw [id_contribute]
        exact hv
    exact hinv p hp

/-! ### Missing citation column, claim C9 -/

theorem jsCitation_of_lookup_none {r : Record} {col : String}
    (h : r.citations.lookup col = none) : jsCitation r col = 0 := by
  unfold jsCitation
  rw [h]

theorem rowNodeContribs_cit {comp : Component} {col : String} {row : Record} :
    ∀ c ∈ rowNodeContribs comp col row, c.cit = jsCitation row col := by
  intro c hc
  cases comp with
  | theoretical =>
    rcases List.mem_map.mp hc with ⟨-, -, rfl⟩
    rfl
  | methodological =>
    rcases List.mem_map.mp hc with ⟨-, -, rfl⟩
    rfl
  | cross =>
    rw [rowNodeContribs, List.mem_flatMap] at hc
    obtain ⟨p, -, hmem⟩ := hc
    rcases List.mem_cons.mp hmem with rfl | hmem2
    · rfl
    · rcases List.mem_singleton.mp hmem2 with rfl
      rfl

theorem rowEdgeContribs_cit {comp : Component} {col : String} {row : Record} :
    ∀ c ∈ rowEdgeContribs comp col row, c.cit = jsCitation row col := by
  intro c hc
  cases comp <;>
    · rcases List.mem_map.mp hc with ⟨-, -, rfl⟩
      rfl

theorem rowCombos_cit {comp : Component} {col : String} {row : Record} :
    ∀ c ∈ rowCombos comp col row, c.citation = jsCitation row col := by
  intro c hc
  rw [rowCombos] at hc
  split at hc
  · rcases List.mem_singleton.mp hc with rfl
    rfl
  · cases hc

theorem mem_allEdgeContribs {data : List Record} {f : Filters} {col : String}
    {c : EdgeContrib} (hc : c ∈ allEdgeContribs data f col) :
    ∃ comp, ∃ row ∈ data, c ∈ rowEdgeContribs comp col row := by
  unfold allEdgeContribs at hc
  rw [List.mem_flatMap] at hc
  obtain ⟨comp, -, hc2⟩ := hc
  rw [List.mem_flatMap] at hc2
  obtain ⟨row, hrow, hc3⟩ := hc2
  exact ⟨comp, row, (mem_selectRows hrow).1, hc3⟩

theorem mem_allCombos {data : List Record} {f : Filters} {col : String}
    {c : Combination} (hc : c ∈ allCombos data f col) :
    ∃ comp, ∃ row ∈ data, c ∈ rowCombos comp col row := by
  unfold allCombos at hc
  rw [List.mem_flatMap] at hc
  obtain ⟨comp, -, hc2⟩ := hc
  rw [List.mem_flatMap] at hc2
  obtain ⟨row, hrow, hc3⟩ := hc2
  exact ⟨comp, row, (mem_selectRows hrow).1, hc3⟩

theorem nodeMap_citations_forall (data : List Record) (f : Filters)
    (col : String) (P : ℚ → Prop) (hP : ∀ row ∈ data, P (jsCitation row col)) :
    ∀ p ∈ (buildState data f col).nodeMap, ∀ x ∈ p.2.citations, P x := by
  rw [buildState_nodeMap]
  refine nodeFold_forall (fun p => ∀ x ∈ p.2.citations, P x) _ []
    (by intro p hp; cases hp) ?_
  intro c hc
  have hcit : P c.cit := by
    obtain ⟨comp, row, hrow, hcrow⟩ := mem_allNodeContribs hc
    rw [rowNodeContribs_cit c hcrow]
    exact hP row hrow
  constructor
  · intro x hx
    have : (Node.contribute c.comp c.rs c.year c.cit
        (Node.init c.code c.defaultCat)).citations = [c.cit] := by
      cases c.comp <;> rfl
    rw [this] at hx
    rcases List.mem_singleton.mp hx with rfl
    exact hcit
  · intro v hv x hx
    have : (Node.contribute c.comp c.rs c.year c.cit v).citations =
        v.citations ++ [c.cit] := by
      cases c.comp <;> rfl
    rw [this] at hx
    rcases List.mem_append.mp hx with hx2 | hx2
    · exact hv x hx2
    · rcases List.mem_singleton.mp hx2 with rfl
      exact hcit

theorem edgeMap_citations_forall (data : List Record) (f : Filters)
    (col : String) (P : ℚ → Prop) (hP : ∀ row ∈ data, P (jsCitation row col)) :
    ∀ p ∈ (buildState data f col).edgeMap, ∀ x ∈ p.2.citations, P x := by
  rw [buildState_edgeMap]
  refine edgeFold_forall (fun p => ∀ x ∈ p.2.citations, P x) _ []
    (by intro p hp; cases hp) ?_
  intro c hc
  have hcit : P c.cit := by
    obtain ⟨comp, row, hrow, hcrow⟩ := mem_allEdgeContribs hc
    rw [rowEdgeContribs_cit c hcrow]
    exact hP row hrow
  constructor
  · intro x hx
    rcases List.mem_singleton.mp hx with rfl
    exact hcit
  · intro v hv x hx
    rcases List.mem_append.mp hx with hx2 | hx2
    · exact hv x hx2
    · rcases List.mem_singleton.mp hx2 with rfl
      exact hcit

/-- **C9.** When the citation column for the selected window is absent
from every record, each record's citation value is treated as `0` in
every node, edge and combination it contributes to; the pipeline is
total, so this is not an error and a result is still produced. -/
theorem missing_citation_spec (data : List Record) (f : Filters) (w : String)
    (q : ℚ)
    (hmissing : data.Forall fun r =>
      r.citations.lookup (getCitationColumn w) = none) :
    ((buildNetworkData data f w q).nodes).Forall
      (fun n => n.citations.Forall fun c => c = 0) ∧
    ((buildNetworkData data f w q).edges).Forall
      (fun e => e.citations.Forall fun c => c = 0) ∧
    ((buildNetworkData data f w q).combinations).Forall
      fun c => c.citation = 0 := by
  rw [List.forall_iff_forall_mem] at hmissing
  have hz : ∀ row ∈ data, jsCitation row (getCitationColumn w) = 0 :=
    fun row hrow => jsCitation_of_lookup_none (hmissing row hrow)
  refine ⟨?_, ?_, ?_⟩
  · rw [List.forall_iff_forall_mem]
    intro n hn
    rcases List.mem_map.mp hn with ⟨p, hp, rfl⟩
    rw [List.forall_iff_forall_mem]
    intro x hx
    exact nodeMap_citations_forall data f _ (fun v => v = 0) hz p hp x hx
  · rw [List.forall_iff_forall_mem]
    intro e he
    rcases List.mem_map.mp he with ⟨p, hp, rfl⟩
    rw [List.forall_iff_forall_mem]
    intro x hx
    exact edgeMap_citations_forall data f _ (fun v => v = 0) hz p hp x hx
  · rw [List.forall_iff_forall_mem]
    intro c hc
    have hcombos : (buildNetworkData data f w q).combinations =
        allCombos data f (getCitationColumn w) :=
      buildState_combos data f (getCitationColumn w)
    rw [hcombos] at hc
    obtain ⟨comp, row, hrow, hcrow⟩ := mem_allCombos hc
    rw [rowCombos_cit c hcrow]
    exact hz row hrow

/-! ### Network effect, claim C1 -/

theorem quantile_nonneg (xs : List ℚ) (q : ℚ) (hxs : ∀ x ∈ xs, 0 ≤ x) :
    0 ≤ quantile xs q := by
  unfold quantile
  dsimp only
  set sorted := jsSortAsc xs with hs
  have hmem : ∀ x ∈ sorted, 0 ≤ x := by
    intro x hx
    exact hxs x ((jsSortAsc_perm xs).mem_iff.mp hx)
  set pos : ℚ := ((sorted.length : ℚ) - 1) * q with hpos
  have hrest0 : 0 ≤ pos - (⌊pos⌋ : ℚ) := by
    have := Int.floor_le pos
    linarith
  have hrest1 : pos - (⌊pos⌋ : ℚ) ≤ 1 := by
    have := Int.lt_floor_add_one pos
    linarith
  cases h1 : sorted.get? (⌊pos⌋.toNat + 1) with
  | some next =>
    cases h2 : sorted.get? ⌊pos⌋.toNat with
    | some cur =>
      have hcur : 0 ≤ cur := hmem cur (List.get?_mem h2)
      have hnext : 0 ≤ next := hmem next (List.get?_mem h1)
      have hconv : cur + (pos - (⌊pos⌋ : ℚ)) * (next - cur) =
          (1 - (pos - (⌊pos⌋ : ℚ))) * cur + (pos - (⌊pos⌋ : ℚ)) * next := by
        ring
      show 0 ≤ cur + (pos - (⌊pos⌋ : ℚ)) * (next - cur)
      rw [hconv]
      have h1r : 0 ≤ 1 - (pos - (⌊pos⌋ : ℚ)) := by linarith
      positivity
    | none => simp
  | none =>
    cases h2 : sorted.get? ⌊pos⌋.toNat with
    | some cur => exact hmem cur (List.get?_mem h2)
    | none => simp

theorem lookup_value_mem :
    ∀ (l : List (String × ℚ)) (k : String) (v : ℚ),
      l.lookup k = some v → ∃ p ∈ l, p.2 = v
  | [], _, _, h => by cases h
  | p :: rest, k, v, h => by
    rw [List.lookup] at h
    cases hk : (k == p.1) with
    | true =>
      rw [hk] at h
      rcases Option.some_injective _ h with rfl
      exact ⟨p, List.mem_cons_self p rest, rfl⟩
    | false =>
      rw [hk] at h
      obtain ⟨q, hq, hqv⟩ := lookup_value_mem rest k v h
      exact ⟨q, List.mem_cons_of_mem _ hq, hqv⟩

theorem jsCitation_nonneg {r : Record} {col : String}
    (h : ∀ p ∈ r.citations, 0 ≤ p.2) : 0 ≤ jsCitation r col := by
  unfold jsCitation
  cases hl : r.citations.lookup col with
  | some v =>
    obtain ⟨p, hp, hpv⟩ := lookup_value_mem _ _ _ hl
    show 0 ≤ if v = 0 then 0 else v
    by_cases hv : v = 0
    · simp [hv]
    · rw [if_neg hv, ← hpv]
      exact h p hp
  | none => exact le_refl 0

/-- **C1 (amended).** On a fresh invocation the network-level current
effect is the `edgeWeightJs`-weighted mean of all edges' `avgBeta`:
each edge's weight is `citationAtQuantile || 1`, i.e. exactly
`citationAtQuantile` when that value is nonzero (including values
strictly between 0 and 1) and `1` when it is zero; under non-negative
record citations every weight is positive, so the quotient below is a
genuine weighted mean when there are edges, and with no edges the effect
is 0. -/
theorem network_effect_spec (data : List Record) (f : Filters) (w : String)
    (q : ℚ)
    (hcit : data.Forall fun r => r.citations.Forall fun p => 0 ≤ p.2) :
    networkEffect [] = 0 ∧
    ((buildNetworkData data f w q).edges).Forall (fun e =>
      (e.citationAtQuantile = 0 → edgeWeightJs e = 1) ∧
      (¬ e.citationAtQuantile = 0 → edgeWeightJs e = e.citationAtQuantile) ∧
      0 < edgeWeightJs e) ∧
    networkEffect ((buildNetworkData data f w q).edges) =
      (((buildNetworkData data f w q).edges).map fun e =>
        e.avgBeta * edgeWeightJs e).sum /
        (((buildNetworkData data f w q).edges).map edgeWeightJs).sum := by
  rw [List.forall_iff_forall_mem] at hcit
  have hz : ∀ row ∈ data, 0 ≤ jsCitation row (getCitationColumn w) := by
    intro row hrow
    refine jsCitation_nonneg ?_
    intro p hp
    have := hcit row hrow
    rw [List.forall_iff_forall_mem] at this
    exact this p hp
  have hwpos : ∀ e ∈ (buildNetworkData data f w q).edges,
      0 ≤ e.citationAtQuantile ∧
      (e.citationAtQuantile = 0 → edgeWeightJs e = 1) ∧
      (¬ e.citationAtQuantile = 0 → edgeWeightJs e = e.citationAtQuantile) ∧
      0 < edgeWeightJs e := by
    intro e he
    rcases List.mem_map.mp he with ⟨p, hp, rfl⟩
    have hciterate : ∀ x ∈ p.2.citations, (0:ℚ) ≤ x :=
      edgeMap_citations_forall data f _ (fun v => 0 ≤ v) hz p hp
    have hq0 : 0 ≤ (finalizeEdge q p.2).citationAtQuantile := by
      show 0 ≤ if 0 < p.2.citations.length then quantile p.2.citations q else 0
      split
      · exact quantile_nonneg _ _ hciterate
      · exact le_refl 0
    refine ⟨hq0, ?_, ?_, ?_⟩
    · intro h0
      unfold edgeWeightJs
      rw [if_pos h0]
    · intro h0
      unfold edgeWeightJs
      rw [if_neg h0]
    · unfold edgeWeightJs
      split
      · exact zero_lt_one
      · rename_i h0
        exact lt_of_le_of_ne hq0 (fun h => h0 h.symm)
  refine ⟨rfl, ?_, ?_⟩
  · rw [List.forall_iff_forall_mem]
    intro e he
    exact (hwpos e he).2
  · cases hE : (buildNetworkData data f w q).edges with
    | nil => simp [networkEffect]
    | cons e es =>
      have hne : (buildNetworkData data f w q).edges ≠ [] := by
        rw [hE]
        exact List.cons_ne_nil e es
      have hlen : 0 < (buildNetworkData data f w q).edges.length := by
        rw [hE]
        simp
      have hsum : 0 <
          (((buildNetworkData data f w q).edges).map edgeWeightJs).sum := by
        refine List.sum_pos _ ?_ ?_
        · intro x hx
          rcases List.mem_map.mp hx with ⟨e2, he2, rfl⟩
          exact ((hwpos e2 he2).2.2).2
        · rw [hE]
          simp
      rw [← hE]
      unfold networkEffect
      rw [if_pos hlen, if_pos hsum]

/-- Two otherwise identical records giving the shared edge the citation
sample `[0, 1]`, whose interpolated median is `1/2`. -/
def recW0 : Record :=
  { theoretical := ["A10", "B20"], methodological := [], cross := []
    rs_theoretical := 1, rs_methodological := 0, rs_cross := 0
    publication_year := 2010, citations := [("citation_5years", 0)] }

/-- Companion record to `recW0` with citation value 1. -/
def recW1 : Record := { recW0 with citations := [("citation_5years", 1)] }

/-- **C1 (counterexample).** An edge whose `citationAtQuantile` is `1/2`
gets weight `1/2`, not a floor of `1`: the JavaScript `|| 1` only
replaces a zero weight, so "every edge's weight is at least 1" is false. -/
theorem network_effect_counterexample :
    ((buildNetworkData [recW0, recW1] filtersTheo "5years" (1/2)).edges.map
      edgeWeightJs) = [1/2] ∧ ¬ (1 ≤ ((1:ℚ)/2)) := by
  have hq : quantile [(0:ℚ), 1] (1/2) = 1/2 := by
    norm_num [quantile, jsSortAsc, List.get?, Int.fract]
  have hshape : ((buildNetworkData [recW0, recW1] filtersTheo "5years"
      (1/2)).edges.map edgeWeightJs) =
      [if quantile [(0:ℚ), 1] (1/2) = 0 then 1
       else quantile [(0:ℚ), 1] (1/2)] := rfl
  rw [hshape, hq]
  norm_num

/-! ### Itemset ranker lemmas, claim C6 -/

instance : IsTotal String strLe := ⟨fun a b => strLeb_total a b⟩

instance : IsTrans String strLe := ⟨fun _ _ _ h h2 => strLeb_trans h h2⟩

instance : IsTotal FinalCluster clusterDescOrder := ⟨fun a b => le_total _ _⟩

instance : IsTrans FinalCluster clusterDescOrder :=
  ⟨fun _ _ _ hab hbc => le_trans hbc hab⟩

theorem jsSetDedup_fold_mem (x : String) :
    ∀ (l acc : List String),
      (x ∈ l.foldl (fun acc a => if a ∈ acc then acc else acc ++ [a]) acc ↔
        x ∈ acc ∨ x ∈ l)
  | [], acc => by simp
  | a :: l, acc => by
    rw [List.foldl_cons]
    by_cases h : a ∈ acc
    · rw [if_pos h, jsSetDedup_fold_mem x l acc]
      constructor
      · rintro (hx | hx)
        · exact Or.inl hx
        · exact Or.inr (List.mem_cons_of_mem _ hx)
      · rintro (hx | hx)
        · exact Or.inl hx
        · rcases List.mem_cons.mp hx with rfl | hx2
          · exact Or.inl h
          · exact Or.inr hx2
    · rw [if_neg h, jsSetDedup_fold_mem x l (acc ++ [a])]
      simp only [List.mem_append, List.mem_singleton, List.mem_cons]
      tauto

theorem jsSetDedup_fold_nodup :
    ∀ (l acc : List String), acc.Nodup →
      (l.foldl (fun acc a => if a ∈ acc then acc else acc ++ [a]) acc).Nodup
  | [], _, h => h
  | a :: l, acc, h => by
    rw [List.foldl_cons]
    by_cases ha : a ∈ acc
    · rw [if_pos ha]
      exact jsSetDedup_fold_nodup l acc h
    · rw [if_neg ha]
      refine jsSetDedup_fold_nodup l _ ?_
      simp [List.nodup_append, h, ha]

theorem jsSetDedup_mem (x : String) (l : List String) :
    x ∈ jsSetDedup l ↔ x ∈ l := by
  unfold jsSetDedup
  rw [jsSetDedup_fold_mem x l []]
  simp

theorem jsSetDedup_nodup (l : List String) : (jsSetDedup l).Nodup :=
  jsSetDedup_fold_nodup l [] List.nodup_nil

theorem applyCluster_eq_upsert (m : List (String × Cluster))
    (c : Combination) :
    applyCluster m c = alistUpsert m c.id
      { id := c.id, codes := c.codes, type := c.type
        count := 0, totalCit := 0, citations := [] }
      (fun g =>
        { g with
          count := g.count + 1
          totalCit := g.totalCit + c.citation
          citations := g.citations ++ [c.citation] }) := by
  unfold applyCluster alistUpsert
  cases hk : alookup m c.id with
  | some v => rfl
  | none =>
    have habsent : alistUpdate m c.id (fun g =>
        { g with
          count := g.count + 1
          totalCit := g.totalCit + c.citation
          citations := g.citations ++ [c.citation] }) = m := by
      rw [alookup_none_iff] at hk
      unfold alistUpdate
      conv_rhs => rw [show m = m.map id from (List.map_id m).symm]
      refine List.map_congr_left ?_
      intro p hp
      rw [if_neg (hk p hp)]
      rfl
    unfold alistUpdate at habsent ⊢
    rw [List.map_append, habsent]
    simp

theorem clusterFold_id_inv :
    ∀ (combos : List Combination) (m : List (String × Cluster)),
      (∀ p ∈ m, p.1 = p.2.id) →
      ∀ p ∈ combos.foldl applyCluster m, p.1 = p.2.id
  | [], _, hm => hm
  | c :: combos, m, hm => by
    rw [List.foldl_cons, applyCluster_eq_upsert]
    refine clusterFold_id_inv combos _ ?_
    intro p hp
    refine alistUpsert_forall hm rfl ?_ p hp
    intro v hv
    exact hv

theorem clusterFold_keys_nodup :
    ∀ (combos : List Combination) (m : List (String × Cluster)),
      (m.map Prod.fst).Nodup →
      ((combos.foldl applyCluster m).map Prod.fst).Nodup
  | [], _, hm => hm
  | c :: combos, m, hm => by
    rw [List.foldl_cons, applyCluster_eq_upsert]
    exact clusterFold_keys_nodup combos _ (alistUpsert_keys_nodup _ _ _ _ hm)

theorem alookup_of_mem_nodup {α : Type} :
    ∀ {m : List (String × α)} {p : String × α},
      (m.map Prod.fst).Nodup → p ∈ m → alookup m p.1 = some p.2
  | [], p, _, hp => by cases hp
  | q :: rest, p, hnd, hp => by
    rw [List.map_cons, List.nodup_cons] at hnd
    rcases List.mem_cons.mp hp with rfl | hp2
    · simp [alookup]
    · have hne : q.1 ≠ p.1 := by
        intro hq
        exact hnd.1 (hq ▸ List.mem_map_of_mem Prod.fst hp2)
      rw [alookup, if_neg hne]
      exact alookup_of_mem_nodup hnd.2 hp2

theorem clusterFold_counts (combos : List Combination) (x : String) :
    (alookup (combos.foldl applyCluster []) x).map
        (fun g => (g.count, g.citations)) =
      if (combos.filter fun c => c.id == x).length = 0 then none
      else some ((combos.filter fun c => c.id == x).length,
        (combos.filter fun c => c.id == x).map fun c => c.citation) := by
  induction combos using List.reverseRecOn with
  | nil => simp [alookup]
  | append_singleton cs c ih =>
    rw [List.foldl_append, List.foldl_cons, List.foldl_nil,
      applyCluster_eq_upsert, alookup_alistUpsert, List.filter_append]
    by_cases hcx : c.id = x
    · rw [if_pos hcx]
      have hfc : List.filter (fun c => c.id == x) [c] = [c] := by
        simp [hcx]
      rw [hfc]
      cases hl : alookup (cs.foldl applyCluster []) x with
      | some g =>
        have hgl : alookup (cs.foldl applyCluster []) c.id = some g := by
          rw [hcx]
          exact hl
        rw [hl] at ih
        rw [hgl]
        by_cases hlen : (cs.filter fun c => c.id == x).length = 0
        · rw [if_pos hlen] at ih
          cases ih
        · rw [if_neg hlen] at ih
          have hcount : g.count = (cs.filter fun c => c.id == x).length ∧
              g.citations =
                (cs.filter fun c => c.id == x).map fun c => c.citation := by
            have := Option.some_injective _ ih
            exact ⟨congrArg Prod.fst this, congrArg Prod.snd this⟩
          simp only [Option.getD_some, Option.map_some]
          rw [List.length_append, List.map_append]
          simp only [hfc, List.length_cons, List.length_nil]
          rw [if_neg (by omega)]
          simp [hcount.1, hcount.2]
      | none =>
        have hgl : alookup (cs.foldl applyCluster []) c.id = none := by
          rw [hcx]
          exact hl
        rw [hl] at ih
        rw [hgl]
        by_cases hlen : (cs.filter fun c => c.id == x).length = 0
        · have hnil : cs.filter (fun c => c.id == x) = [] :=
            List.length_eq_zero.mp hlen
          simp only [Option.getD_none, Option.map_some, hnil, hfc]
          simp
        · rw [if_neg hlen] at ih
          cases ih
    · rw [if_neg hcx]
      have hfc : List.filter (fun c => c.id == x) [c] = [] := by
        simp [hcx]
      rw [hfc, List.append_nil]
      exact ih

/-- A record whose theoretical list contains a duplicated code and whose
cross list has a single pair (two distinct codes). -/
def recDup : Record :=
  { theoretical := ["B10", "A10", "A10"], methodological := []
    cross := [("M10", "T10")]
    rs_theoretical := 1, rs_methodological := 0, rs_cross := 1
    publication_year := 2010, citations := [] }

/-- **C6 (counterexample).** For a theoretical record with codes
`[B10, A10, A10]` the stored combination code-list is
`[A10, A10, B10]` — sorted but **not** deduplicated; and a cross record
with one pair contributes two distinct codes yet no combination is built
(the guard counts pairs, not codes). -/
theorem combos_counterexample :
    ((rowCombos .theoretical "citation_5years" recDup).map fun c => c.codes) =
      [["A10", "A10", "B10"]] ∧
    ¬ (["A10", "A10", "B10"] : List String).Nodup ∧
    rowCombos .cross "citation_5years" recDup = [] ∧
    (jsSetDedup (recDup.cross.flatMap fun p => [p.1, p.2])).length = 2 := by
  refine ⟨by decide, by decide, by decide, by decide⟩

/-- **C6 (amended).** For every record whose list for an active category
has at least 2 entries (codes for `theoretical`/`methodological`, pairs
for `cross`), exactly one Combination is built for that
(record, category); its code-list is sorted ascending and is, for
`cross`, the deduplicated union of both sides of every pair, while for
`theoretical`/`methodological` it is a permutation of the record's own
code-list (duplicates retained, no dedup). Clusters group combinations
with identical joined id, aggregating occurrence count and the citation
list across the group, and are returned sorted descending by mean
citation, truncated to the top 10. -/
theorem combos_clusters_spec (comp : Component) (col : String) (r : Record)
    (combos : List Combination) :
    ((rowCombos comp col r).length = if 2 ≤ r.catLen comp then 1 else 0) ∧
    ((rowCombos comp col r).Forall fun c =>
      c.codes.Pairwise strLe ∧
      (match comp with
       | .cross => c.codes.Nodup ∧
           ∀ x, (x ∈ c.codes ↔ x ∈ r.cross.flatMap fun p => [p.1, p.2])
       | .theoretical => c.codes.Perm r.theoretical
       | .methodological => c.codes.Perm r.methodological)) ∧
    (topClusters combos).length ≤ 10 ∧
    (topClusters combos).Pairwise (fun a b => b.avgCit ≤ a.avgCit) ∧
    ((topClusters combos).Forall fun g =>
      g.count = (combos.filter fun c => c.id == g.id).length ∧
      g.citations = (combos.filter fun c => c.id == g.id).map
        fun c => c.citation) := by
  refine ⟨?_, ?_, ?_, ?_, ?_⟩
  · unfold rowCombos
    split <;> rfl
  · rw [List.forall_iff_forall_mem]
    intro c hc
    rw [rowCombos] at hc
    split at hc
    swap
    · cases hc
    rcases List.mem_singleton.mp hc with rfl
    constructor
    · show (rowFlatCodes comp r).Pairwise strLe
      cases comp <;> exact List.sorted_insertionSort strLe _
    · cases comp with
      | cross =>
        refine ⟨?_, ?_⟩
        · show (jsSortStr (jsSetDedup _)).Nodup
          exact (List.perm_insertionSort strLe _).nodup_iff.mpr
            (jsSetDedup_nodup _)
        · intro x
          show x ∈ jsSortStr (jsSetDedup _) ↔ _
          unfold jsSortStr
          rw [List.mem_insertionSort, jsSetDedup_mem]
      | theoretical => exact List.perm_insertionSort strLe _
      | methodological => exact List.perm_insertionSort strLe _
  · unfold topClusters
    calc (_ : List FinalCluster).length ≤ _ := le_of_eq (List.length_take _ _)
      _ ≤ 10 := min_le_left _ _
  · unfold topClusters
    exact List.Pairwise.sublist (List.take_sublist _ _)
      (List.sorted_insertionSort clusterDescOrder _)
  · rw [List.forall_iff_forall_mem]
    intro g hg
    unfold topClusters at hg
    have hg2 := List.mem_of_mem_take hg
    rw [List.mem_insertionSort] at hg2
    rcases List.mem_map.mp hg2 with ⟨p, hp, rfl⟩
    have hid : p.1 = p.2.id :=
      clusterFold_id_inv combos [] (by intro p hp; cases hp) p hp
    have hnd : ((combos.foldl applyCluster []).map Prod.fst).Nodup :=
      clusterFold_keys_nodup combos [] List.nodup_nil
    have hlook : alookup (combos.foldl applyCluster []) p.1 = some p.2 :=
      alookup_of_mem_nodup hnd hp
    have hcounts := clusterFold_counts combos p.1
    rw [hlook] at hcounts
    by_cases hlen : (combos.filter fun c => c.id == p.1).length = 0
    · rw [if_pos hlen] at hcounts
      cases hcounts
    · rw [if_neg hlen] at hcounts
      have heq := Option.some_injective _ hcounts
      refine ⟨?_, ?_⟩
      · show p.2.count = (combos.filter fun c => c.id == p.2.id).length
        rw [← hid]
        exact congrArg Prod.fst heq
      · show p.2.citations =
          (combos.filter fun c => c.id == p.2.id).map fun c => c.citation
        rw [← hid]
        exact congrArg Prod.snd heq

/-! ### Concrete witnesses -/

/-- Witness for C1: the two-record data set under window `5years`. -/
theorem network_effect_witness :
    networkEffect [] = 0 ∧
    ((buildNetworkData [recW0, recW1] filtersTheo "5years" 0).edges).Forall
      (fun e =>
        (e.citationAtQuantile = 0 → edgeWeightJs e = 1) ∧
        (¬ e.citationAtQuantile = 0 →
          edgeWeightJs e = e.citationAtQuantile) ∧
        0 < edgeWeightJs e) ∧
    networkEffect
        ((buildNetworkData [recW0, recW1] filtersTheo "5years" 0).edges) =
      (((buildNetworkData [recW0, recW1] filtersTheo "5years" 0).edges).map
        fun e => e.avgBeta * edgeWeightJs e).sum /
        (((buildNetworkData [recW0, recW1] filtersTheo "5years"
          0).edges).map edgeWeightJs).sum :=
  network_effect_spec [recW0, recW1] filtersTheo "5years" 0 (by decide)

/-- Witness for C4: the sample `[40, 25]` at `τ = 0`. -/
theorem quantile_spec_witness :
    (∀ sorted : List ℚ, sorted.Perm [40, 25] → sorted.Sorted (· ≤ ·) →
        quantile [40, 25] 0 = quantileSpecFormula sorted 0) ∧
    (quantile [40, 25] 0 ∈ [40, 25] ∧
      ∀ y ∈ ([40, 25] : List ℚ), quantile [40, 25] 0 ≤ y) ∧
    (quantile [40, 25] 1 ∈ [40, 25] ∧
      ∀ y ∈ ([40, 25] : List ℚ), y ≤ quantile [40, 25] 1) ∧
    (∀ v : ℚ, quantile [v] 0 = v) :=
  quantile_spec [40, 25] 0 (by simp) le_rfl zero_le_one

/-- A record with three distinct theoretical codes, two distinct
methodological codes and two cross pairs. -/
def recC3 : Record :=
  { theoretical := ["A10", "B20", "C30"], methodological := ["E10", "F20"]
    cross := [("M10", "T10"), ("M20", "T20")]
    rs_theoretical := 1, rs_methodological := 1, rs_cross := 1
    publication_year := 2010, citations := [] }

/-- Witness for C3: `[A10,B20,C30]` gives the 3 clique edges,
`[E10,F20]` gives 1 methodological edge, and the two cross pairs give
exactly 2 edges. -/
theorem clique_vs_direct_witness :
    ((processRow .theoretical "citation_5years" ⟨[], [], []⟩
        recC3).edgeMap.map Prod.fst) =
      ((listPairs recC3.theoretical).map fun p => canonKey p.1 p.2) ∧
    ((processRow .theoretical "citation_5years" ⟨[], [], []⟩
        recC3).edgeMap.Forall fun p => p.2.count = 1) ∧
    (processRow .theoretical "citation_5years" ⟨[], [], []⟩
        recC3).edgeMap.length =
      recC3.theoretical.length * (recC3.theoretical.length - 1) / 2 ∧
    ((processRow .methodological "citation_5years" ⟨[], [], []⟩
        recC3).edgeMap.map Prod.fst) =
      ((listPairs recC3.methodological).map fun p => canonKey p.1 p.2) ∧
    ((processRow .methodological "citation_5years" ⟨[], [], []⟩
        recC3).edgeMap.Forall fun p => p.2.count = 1) ∧
    (processRow .methodological "citation_5years" ⟨[], [], []⟩
        recC3).edgeMap.length =
      recC3.methodological.length * (recC3.methodological.length - 1) / 2 ∧
    ((processRow .cross "citation_5years" ⟨[], [], []⟩ recC3).edgeMap.map
        Prod.fst) = (recC3.cross.map fun p => canonKey p.1 p.2) ∧
    ((processRow .cross "citation_5years" ⟨[], [], []⟩ recC3).edgeMap.Forall
      fun p => p.2.count = 1) ∧
    (processRow .cross "citation_5years" ⟨[], [], []⟩ recC3).edgeMap.length =
      recC3.cross.length :=
  clique_vs_direct_spec recC3 "citation_5years" (by decide) (by decide)
    (by decide) (by decide) (by decide)

/-- A record carrying only a 1-year citation column. -/
def recC9 : Record :=
  { theoretical := ["A10", "B20"], methodological := [], cross := []
    rs_theoretical := 1, rs_methodological := 0, rs_cross := 0
    publication_year := 2010, citations := [("citation_1years", 7)] }

/-- Witness for C9: a record with no `citation_5years` column under the
`5years` window. -/
theorem missing_citation_witness :
    ((buildNetworkData [recC9] filtersTheo "5years" 0).nodes).Forall
      (fun n => n.citations.Forall fun c => c = 0) ∧
    ((buildNetworkData [recC9] filtersTheo "5years" 0).edges).Forall
      (fun e => e.citations.Forall fun c => c = 0) ∧
    ((buildNetworkData [recC9] filtersTheo "5years" 0).combinations).Forall
      (fun c => c.citation = 0) :=
  missing_citation_spec [recC9] filtersTheo "5years" 0 (by decide)

/-- Witness for C7: the short code `C5` and a one-record data set. -/
theorem normalization_witness :
    normalizeCode "C5" = "C5" ++ "0" ∧
    ((buildNetworkData ([recC3].map normalizeRecord) filtersTheo "5years"
        0).nodes).Forall fun n => isShortCode n.id = false :=
  normalization_spec "C5" (by decide) [recC3] filtersTheo "5years" 0

end DivNet
